import Mathlib

/-!
# Employee shift scheduler: embedding of `scheduler.cpp`

A shallow embedding of the `Employee` and `Scheduler` classes of `scheduler.cpp`
(data model, CSV validation and import, the two-phase `generateSchedule`), followed by
theorems about them.

Conventions of the embedding.

* `std::map<string, T>` members of `Employee` are association lists with unique-key
  update (`mapFind`, `mapSet`); only `find` and `operator[]` are used on them in the
  source, so the iteration order of the map is never observed.
* The grid `map<string, map<Shift, vector<string>>>` is a total function from day and
  shift to the vector of names: a missing cell and an empty cell are the same value,
  which is what `operator[]` (default construction on first access) makes of them.
* `unique_ptr<Employee>` / `Employee*` are positions in the `employees` vector.
* `std::cout` is the list of lines written so far; the random device is a stream of
  naturals `rng`, the `k`-th draw over a pool of size `n` being `rng k % n`.
* The `while` loop of `resolveConflicts` carries an explicit iteration budget and
  returns `none` when the budget is exhausted before the loop condition fails.
-/

namespace ShiftScheduler

set_option maxRecDepth 100000

/-! ## Shifts -/

/-- The `enum class Shift`. -/
inductive Shift where
  | MORNING
  | AFTERNOON
  | EVENING
  | NO_SHIFT
  deriving DecidableEq, Repr

/-- The function `shiftFromCode`: exact, case-sensitive comparison with "M", "A", "E". -/
def shiftFromCode (code : String) : Shift :=
  if code = "M" then Shift.MORNING
  else if code = "A" then Shift.AFTERNOON
  else if code = "E" then Shift.EVENING
  else Shift.NO_SHIFT

/-- The function `shiftToCode`. -/
def shiftToCode : Shift → String
  | Shift.MORNING => "M"
  | Shift.AFTERNOON => "A"
  | Shift.EVENING => "E"
  | Shift.NO_SHIFT => "N"

/-! ## `std::map<string, T>` as an association list -/

/-- The lookup `m.find(key)`: `none` stands for `m.end()`. -/
def mapFind {α : Type} (key : String) : List (String × α) → Option α
  | [] => none
  | (k, v) :: m => if k = key then some v else mapFind key m

/-- The assignment `m[key] = v`: overwrite the entry of `key`, or create it. -/
def mapSet {α : Type} (key : String) (v : α) : List (String × α) → List (String × α)
  | [] => [(key, v)]
  | (k, w) :: m => if k = key then (key, v) :: m else (k, w) :: mapSet key v m

/-! ## Employee -/

/-- The data members of `class Employee`. The counter `int days_worked` is an unbounded
integer: it starts at 0 and is only ever incremented, once per `assignShift` call. -/
structure Employee where
  name : String
  preferred_shifts : List (String × List Shift)
  assigned_shifts : List (String × Shift)
  days_worked : Int
  deriving DecidableEq, Repr

namespace Employee

/-- The constructor `Employee(name)`. -/
def new (name : String) : Employee :=
  { name := name, preferred_shifts := [], assigned_shifts := [], days_worked := 0 }

/-- The method `Employee::addPreferredShift`:
`if (shift != NO_SHIFT) preferred_shifts[day].push_back(shift)`. -/
def addPreferredShift (e : Employee) (day : String) (shift : Shift) : Employee :=
  if shift ≠ Shift.NO_SHIFT then
    { e with preferred_shifts :=
        mapSet day (((mapFind day e.preferred_shifts).getD []) ++ [shift]) e.preferred_shifts }
  else e

/-- The method `Employee::canWork`. -/
def canWork (e : Employee) (day : String) (shift : Shift) : Bool :=
  match mapFind day e.preferred_shifts with
  | none => false
  | some prefs =>
    decide (e.days_worked < 5) && (mapFind day e.assigned_shifts).isNone && decide (shift ∈ prefs)

/-- The method `Employee::assignShift`: `assigned_shifts[day] = shift; days_worked++`. -/
def assignShift (e : Employee) (day : String) (shift : Shift) : Employee :=
  { e with assigned_shifts := mapSet day shift e.assigned_shifts
           days_worked := e.days_worked + 1 }

/-- The method `Employee::getName`. -/
def getName (e : Employee) : String := e.name

/-- The method `Employee::getDaysWorked`. -/
def getDaysWorked (e : Employee) : Int := e.days_worked

/-- The method `Employee::isAssigned`. -/
def isAssigned (e : Employee) (day : String) : Bool :=
  (mapFind day e.assigned_shifts).isSome

end Employee

/-! ## Scheduler state -/

/-- The member `days`, as set by the constructor. -/
def days : List String :=
  ["Monday", "Tuesday", "Wednesday", "Thursday", "Friday", "Saturday", "Sunday"]

/-- The member `shifts`, as set by the constructor. -/
def shifts : List Shift := [Shift.MORNING, Shift.AFTERNOON, Shift.EVENING]

/-- The mutable data members of `class Scheduler`: the employee vector and the grid. -/
structure Scheduler where
  employees : List Employee
  schedule : String → Shift → List String

namespace Scheduler

/-- The constructor `Scheduler()`: no employee, every cell an empty vector. -/
def new : Scheduler := { employees := [], schedule := fun _ _ => [] }

/-- The method `Scheduler::addEmployee`. -/
def addEmployee (s : Scheduler) (name : String) : Scheduler :=
  { s with employees := s.employees ++ [Employee.new name] }

/-- The loop of `Scheduler::addPreferredShift`: the first employee with that name gets the
preference, then `break`. -/
def addPrefLoop (employee_name day : String) (shift : Shift) : List Employee → List Employee
  | [] => []
  | e :: es =>
    if e.getName = employee_name then e.addPreferredShift day shift :: es
    else e :: addPrefLoop employee_name day shift es

/-- The method `Scheduler::addPreferredShift`. -/
def addPreferredShift (s : Scheduler) (employee_name day : String) (shift : Shift) : Scheduler :=
  { s with employees := addPrefLoop employee_name day shift s.employees }

/-- The push `schedule[day][shift].push_back(name)`. -/
def pushName (g : String → Shift → List String) (day : String) (shift : Shift) (name : String) :
    String → Shift → List String :=
  fun d sh => if d = day ∧ sh = shift then g d sh ++ [name] else g d sh

/-- The method `Scheduler::assignShift(Employee*, day, shift)`, the employee being the one at
position `i` of the vector. -/
def assignShift (s : Scheduler) (i : Nat) (day : String) (shift : Shift) : Scheduler :=
  match s.employees[i]? with
  | none => s
  | some e =>
    { employees := s.employees.set i (e.assignShift day shift)
      schedule := pushName s.schedule day shift e.getName }

/-- The method `Scheduler::getAvailableEmployees`, as positions, scanning from position `k`. -/
def getAvailableFrom (day : String) (shift : Shift) : Nat → List Employee → List Nat
  | _, [] => []
  | k, e :: es =>
    if e.canWork day shift then k :: getAvailableFrom day shift (k + 1) es
    else getAvailableFrom day shift (k + 1) es

/-- The method `Scheduler::getAvailableEmployees`. -/
def getAvailableEmployees (s : Scheduler) (day : String) (shift : Shift) : List Nat :=
  getAvailableFrom day shift 0 s.employees

/-- One of the three `if` statements of the body of phase 1, for the employee at position `i`. -/
def tryAssign (i : Nat) (day : String) (shift : Shift) (s : Scheduler) : Scheduler :=
  match s.employees[i]? with
  | none => s
  | some e =>
    if e.canWork day shift && decide ((s.schedule day shift).length < 2) then
      s.assignShift i day shift
    else s

/-- The body of the inner loop of phase 1: Morning, then Afternoon, then Evening. -/
def phase1Day (i : Nat) (s : Scheduler) (day : String) : Scheduler :=
  tryAssign i day Shift.EVENING (tryAssign i day Shift.AFTERNOON (tryAssign i day Shift.MORNING s))

/-- The inner loop of phase 1: the seven days for the employee at position `i`. -/
def phase1Emp (s : Scheduler) (i : Nat) : Scheduler :=
  days.foldl (phase1Day i) s

/-- Phase 1 of `generateSchedule`: the loop over the employees. -/
def phase1 (s : Scheduler) : Scheduler :=
  (List.range s.employees.length).foldl phase1Emp s

/-- The pool built inside the `while` loop of `resolveConflicts`, as positions from `k` on:
employees with `getDaysWorked() < 5 && !isAssigned(day)`. -/
def poolFrom (day : String) : Nat → List Employee → List Nat
  | _, [] => []
  | k, e :: es =>
    if decide (e.getDaysWorked < 5) && !e.isAssigned day then k :: poolFrom day (k + 1) es
    else poolFrom day (k + 1) es

/-- The vector `available_employees` of `resolveConflicts`. -/
def pool (s : Scheduler) (day : String) : List Nat :=
  poolFrom day 0 s.employees

end Scheduler

/-- The line written to `cout` when the pool of a cell is empty. -/
def warningLine (day : String) (shift : Shift) : String :=
  "Warning: Cannot meet minimum coverage for " ++ day ++ " " ++
    (match shift with
     | Shift.MORNING => "Morning"
     | Shift.AFTERNOON => "Afternoon"
     | Shift.EVENING => "Evening"
     | Shift.NO_SHIFT => "")

/-- The scheduler together with what lies outside the object: the lines written to `cout`
and the number of random draws made so far. -/
structure World where
  sched : Scheduler
  cout : List String
  draws : Nat

/-- The `while (current_assignments.size() < 2)` loop of `resolveConflicts` for one cell.
`fuel` bounds the number of iterations; `none` means the budget ran out while the loop
condition still held. -/
def fillCell (rng : Nat → Nat) (day : String) (shift : Shift) : Nat → World → Option World
  | 0, w => if (w.sched.schedule day shift).length < 2 then none else some w
  | fuel + 1, w =>
    if (w.sched.schedule day shift).length < 2 then
      if h : w.sched.pool day = [] then
        some { w with cout := w.cout ++ [warningLine day shift] }
      else
        let avail := w.sched.pool day
        let selected := avail.get ⟨rng w.draws % avail.length,
          Nat.mod_lt _ (List.length_pos.mpr h)⟩
        fillCell rng day shift fuel
          { w with sched := w.sched.assignShift selected day shift, draws := w.draws + 1 }
    else some w

/-- The loop over `shifts` inside `resolveConflicts`, for one day. -/
def resolveDay (rng : Nat → Nat) (fuel : Nat) (w : World) (day : String) : Option World :=
  shifts.foldlM (fun w shift => fillCell rng day shift fuel w) w

/-- The method `Scheduler::resolveConflicts`. -/
def resolveConflicts (rng : Nat → Nat) (fuel : Nat) (w : World) : Option World :=
  days.foldlM (resolveDay rng fuel) w

/-- The method `Scheduler::generateSchedule`. -/
def generateSchedule (rng : Nat → Nat) (fuel : Nat) (w : World) : Option World :=
  resolveConflicts rng fuel { w with sched := w.sched.phase1 }

/-- The state in which `generateSchedule` is first called: a freshly constructed scheduler
holding the employees `emps`, nothing written, no draw made. -/
def World.start (emps : List Employee) : World :=
  { sched := { employees := emps, schedule := Scheduler.new.schedule }, cout := [], draws := 0 }

/-! ## CSV validation and import -/

/-- The character set `" \t\r\n"` passed to `find_first_not_of` and `find_last_not_of`. -/
def whitespace : List Char := [' ', '\t', '\r', '\n']

/-- The call `s.find_first_not_of(set)`: `none` stands for `string::npos`. -/
def find_first_not_of (set : List Char) : List Char → Option Nat
  | [] => none
  | c :: cs => if c ∈ set then (find_first_not_of set cs).map (· + 1) else some 0

/-- The call `s.find_last_not_of(set)`: `none` stands for `string::npos`. -/
def find_last_not_of (set : List Char) : List Char → Option Nat
  | [] => none
  | c :: cs =>
    match find_last_not_of set cs with
    | some i => some (i + 1)
    | none => if c ∈ set then none else some 0

/-- The two `erase` calls that trim a token:
`token.erase(0, token.find_first_not_of(ws)); token.erase(token.find_last_not_of(ws) + 1)`.
`erase(0, npos)` empties the token, and `npos + 1` wraps around to `0`. -/
def trimToken (token : List Char) : List Char :=
  let token1 :=
    match find_first_not_of whitespace token with
    | none => []
    | some n => token.drop n
  let pos :=
    match find_last_not_of whitespace token1 with
    | none => 0
    | some j => j + 1
  token1.take pos

/-- The loop `while (getline(stream, token, delim))` over the characters of a stream: the
successive tokens. A `getline` that extracts nothing, not even a delimiter, fails, so no
empty token follows a final delimiter and the empty stream gives no token. -/
def getlineAll (delim : Char) : List Char → List (List Char)
  | [] => []
  | c :: cs =>
    if c = delim then [] :: getlineAll delim cs
    else
      match getlineAll delim cs with
      | [] => [[c]]
      | t :: ts => (c :: t) :: ts

/-- The tokens of a line as `validateCSVFormat` reads them: split at commas, each trimmed. -/
def trimmedTokens (line : List Char) : List String :=
  (getlineAll ',' line).map (fun t => String.mk (trimToken t))

/-- The tokens of a line as `loadFromCSV` reads them: split at commas, not trimmed. -/
def rawTokens (line : List Char) : List String :=
  (getlineAll ',' line).map String.mk

/-- The call `transform(code.begin(), code.end(), code.begin(), ::toupper)`. -/
def toupper (code : String) : String :=
  String.mk (code.data.map Char.toUpper)

/-- The message for a file that cannot be opened. -/
def msgCannotOpen : String :=
  "Error: The input CSV file cannot be used because it does not exist.\n" ++
  "Please ensure the file exists and you have permission to read it."

/-- The message for a file without a first line. -/
def msgEmpty : String :=
  "Error: The input CSV file cannot be used because it is empty.\n" ++
  "Please provide a file with employee schedule data."

/-- The first two lines common to the format errors. -/
def msgFormat : String :=
  "Error: The input CSV file cannot be used because it does not follow the required format.\n" ++
  "First error encountered: "

/-- The message for a header that does not have 8 columns. -/
def msgHeaderSize (size : Nat) : String :=
  msgFormat ++ "Invalid header format.\n" ++
  "Expected 8 columns (Name + 7 days of the week), but found " ++ toString size ++ " columns.\n" ++
  "Please ensure your CSV file has the following columns: Name, Monday, Tuesday, Wednesday, Thursday, Friday, Saturday, Sunday."

/-- The message for a first header other than `Name`. -/
def msgFirstColumn (found : String) : String :=
  msgFormat ++ "Invalid first column name.\n" ++
  "Expected 'Name' as the first column, but found '" ++ found ++ "'.\n" ++
  "Please ensure your CSV file starts with a 'Name' column."

/-- The message for a wrong day header. -/
def msgDayColumn (column : Nat) (expected found : String) : String :=
  msgFormat ++ "Invalid column " ++ toString column ++ ".\n" ++
  "Expected '" ++ expected ++ "', but found '" ++ found ++ "'.\n" ++
  "Please ensure your CSV file has the following columns in order: Name, Monday, Tuesday, Wednesday, Thursday, Friday, Saturday, Sunday."

/-- The message for a data row that does not have 8 fields. -/
def msgRowSize (row_num size : Nat) : String :=
  msgFormat ++ "Invalid number of columns in row " ++ toString row_num ++ ".\n" ++
  "Expected 8 columns, but found " ++ toString size ++ " columns.\n" ++
  "Please ensure each row has values for Name and all 7 days of the week."

/-- The message for a data row with an empty name. -/
def msgEmptyName (row_num : Nat) : String :=
  msgFormat ++ "Empty employee name in row " ++ toString row_num ++ ".\n" ++
  "Please ensure all employees have a name."

/-- The message for a shift field that is not one of M, A, E, N. -/
def msgShiftCode (row_num column : Nat) (found : String) : String :=
  msgFormat ++ "Invalid shift code in row " ++ toString row_num ++
  ", column " ++ toString column ++ ".\n" ++
  "Found '" ++ found ++ "', but only M (Morning), A (Afternoon), E (Evening), or N (No Shift) are allowed."

/-- The loop `for (i = 0; i < days.size(); ++i)` over the day headers, from index `i` with
the days still to compare: the first error message, if any. -/
def validateDayColumns (header : List String) : Nat → List String → Option String
  | _, [] => none
  | i, day :: rest =>
    if i + 1 ≥ header.length ∨ header.getD (i + 1) "" ≠ day then
      some (msgDayColumn (i + 1) day (if i + 1 < header.length then header.getD (i + 1) "" else "missing"))
    else validateDayColumns header (i + 1) rest

/-- The loop `for (i = 1; i < row.size(); ++i)` over the shift fields of a row, from index `i`
with the fields still to check: the first error message, if any. -/
def validateShiftCodes (row_num : Nat) : Nat → List String → Option String
  | _, [] => none
  | i, field :: rest =>
    let code := toupper field
    if code ≠ "M" ∧ code ≠ "A" ∧ code ≠ "E" ∧ code ≠ "N" then
      some (msgShiftCode row_num (i + 1) field)
    else validateShiftCodes row_num (i + 1) rest

/-- The loop `while (getline(file, line))` of `validateCSVFormat` over the data rows, with
the counter `row_num`. -/
def validateRows : Nat → List (List Char) → Bool × String
  | _, [] => (true, "CSV format is valid.")
  | row_num, line :: rest =>
    let row := trimmedTokens line
    if row.length ≠ 8 then (false, msgRowSize row_num row.length)
    else if row.getD 0 "" = "" then (false, msgEmptyName row_num)
    else
      match validateShiftCodes row_num 1 (row.drop 1) with
      | some err => (false, err)
      | none => validateRows (row_num + 1) rest

/-- The method `Scheduler::validateCSVFormat`. The file is its content, `none` when it
cannot be opened. -/
def validateCSVFormat (file : Option String) : Bool × String :=
  match file with
  | none => (false, msgCannotOpen)
  | some text =>
    match getlineAll '\n' text.data with
    | [] => (false, msgEmpty)
    | line :: rows =>
      let header := trimmedTokens line
      if header.length ≠ 8 then (false, msgHeaderSize header.length)
      else if header.getD 0 "" ≠ "Name" then (false, msgFirstColumn (header.getD 0 ""))
      else
        match validateDayColumns header 0 days with
        | some err => (false, err)
        | none => validateRows 2 rows

namespace Scheduler

/-- The loop `for (i = 1; i < row.size(); ++i)` of `loadFromCSV` over the fields of a row,
from index `i` with the fields still to read. After validation `i - 1` is below 7, so
`days[i-1]` exists. -/
def loadPrefs (name : String) : Nat → List String → Scheduler → Scheduler
  | _, [], s => s
  | i, field :: rest, s =>
    loadPrefs name (i + 1) rest
      (s.addPreferredShift name (days.getD (i - 1) "") (shiftFromCode field))

/-- The body of the loop `while (getline(file, line))` of `loadFromCSV`. After validation
the row has 8 tokens, so `row[0]` exists. -/
def loadRow (s : Scheduler) (line : List Char) : Scheduler :=
  let row := rawTokens line
  let name := row.getD 0 ""
  loadPrefs name 1 (row.drop 1) (s.addEmployee name)

/-- The method `Scheduler::loadFromCSV`: the returned flag and the scheduler afterwards.
The file is opened twice, for validation and for reading, with the same content. -/
def loadFromCSV (s : Scheduler) (file : Option String) : Bool × Scheduler :=
  if (validateCSVFormat file).1 = false then (false, s)
  else
    match file with
    | none => (false, s)
    | some text => (true, (getlineAll '\n' text.data).tail.foldl loadRow s)

end Scheduler

/-! ## Predicates used in the statements -/

/-- The state of one employee is consistent: the assignment map has one entry per day, the
counter is the number of entries, and it is at most 5. -/
def EmpOk (e : Employee) : Prop :=
  (e.assigned_shifts.map Prod.fst).Nodup ∧
  e.days_worked = (e.assigned_shifts.length : Int) ∧
  e.days_worked ≤ 5

/-- The employee is called `n` and has the recorded assignment `sh` for day `d`. -/
def worksAs (n d : String) (sh : Shift) (e : Employee) : Bool :=
  decide (e.name = n ∧ mapFind d e.assigned_shifts = some sh)

/-- The grid and the employees agree: a name stands in cell `(d, sh)` as many times as
there are employees of that name whose assignment for `d` is `sh`. -/
def GridOk (s : Scheduler) : Prop :=
  ∀ (d : String) (sh : Shift) (n : String),
    (s.schedule d sh).count n = s.employees.countP (worksAs n d sh)

/-- A run of `Scheduler::assignShift` calls, each on an employee who at that moment has
worked fewer than 5 days and has no assignment for the day. -/
inductive Reach : Scheduler → Scheduler → Prop
  | refl (s : Scheduler) : Reach s s
  | step {s t : Scheduler} (i : Nat) (day : String) (shift : Shift) (e : Employee) :
      Reach s t → t.employees[i]? = some e → e.days_worked < 5 →
      mapFind day e.assigned_shifts = none → Reach s (t.assignShift i day shift)

/-- Every recorded assignment of every employee is a shift the employee listed for the day. -/
def PrefOk (s : Scheduler) : Prop :=
  ∀ e ∈ s.employees, ∀ (d : String) (sh : Shift), mapFind d e.assigned_shifts = some sh →
    ∃ prefs, mapFind d e.preferred_shifts = some prefs ∧ sh ∈ prefs

/-- No cell of the week is both short of 2 names and fillable: each has 2 names or the pool
of its day is empty. -/
def Settled (s : Scheduler) : Prop :=
  ∀ d ∈ days, ∀ sh ∈ shifts, 2 ≤ (s.schedule d sh).length ∨ s.pool d = []

/-- The 21 cells in the order in which `resolveConflicts` visits them. -/
def allCells : List (String × Shift) :=
  days.flatMap (fun d => shifts.map (fun sh => (d, sh)))

/-- The backfill restricted to a list of cells, visited in order. -/
def resolveCells (rng : Nat → Nat) (fuel : Nat) (cells : List (String × Shift)) (w : World) :
    Option World :=
  cells.foldlM (fun w c => fillCell rng c.1 c.2 fuel w) w

/-- What a run of assignments keeps of the employee at a given position. -/
def Employee.Extends (e e' : Employee) : Prop :=
  e'.name = e.name ∧ e'.preferred_shifts = e.preferred_shifts ∧
  e.days_worked ≤ e'.days_worked ∧
  ∀ (d : String) (sh : Shift), mapFind d e.assigned_shifts = some sh →
    mapFind d e'.assigned_shifts = some sh

/-- The employees as they are when `generateSchedule` is first called: no assignment
recorded, counter at 0 (any name, any preferences). -/
def Fresh (emps : List Employee) : Prop :=
  ∀ e ∈ emps, e.assigned_shifts = [] ∧ e.days_worked = 0

/-- The employee lists the shift for the day: it is a member of that day's preference list. -/
def Prefers (e : Employee) (day : String) (shift : Shift) : Prop :=
  ∃ prefs, mapFind day e.preferred_shifts = some prefs ∧ shift ∈ prefs

/-- An employee who lists Morning on Monday and nothing else. -/
def aliceMondayMorning : Employee :=
  { name := "Alice", preferred_shifts := [("Monday", [Shift.MORNING])],
    assigned_shifts := [], days_worked := 0 }

/-- An employee who lists Evening on every day from Monday to Friday. -/
def bobEvenings : Employee :=
  { name := "Bob"
    preferred_shifts := [("Monday", [Shift.EVENING]), ("Tuesday", [Shift.EVENING]),
      ("Wednesday", [Shift.EVENING]), ("Thursday", [Shift.EVENING]), ("Friday", [Shift.EVENING])]
    assigned_shifts := [], days_worked := 0 }

/-! ## The format of a table, in the words of the specification -/

/-- The pieces of a text between the occurrences of a separator, a final empty piece not
counting: the newline that ends the last line opens no further line, and a comma that ends a
line opens no further field. -/
def pieces (sep : Char) (text : List Char) : List (List Char) :=
  if (text.splitOn sep).getLast? = some [] then (text.splitOn sep).dropLast
  else text.splitOn sep

/-- A token without its surrounding whitespace (blank, tab, carriage return, newline). -/
def trimmed (token : List Char) : List Char :=
  (token.dropWhile (fun c => decide (c ∈ whitespace))).rdropWhile
    (fun c => decide (c ∈ whitespace))

/-- The fields of a line: its comma-separated pieces, each trimmed. -/
def fieldsOf (line : List Char) : List String :=
  (pieces ',' line).map (fun t => String.mk (trimmed t))

/-- A field is one of M, A, E, N, compared case-insensitively. -/
def IsShiftCode (field : String) : Prop :=
  field = "M" ∨ field = "m" ∨ field = "A" ∨ field = "a" ∨
  field = "E" ∨ field = "e" ∨ field = "N" ∨ field = "n"

/-- The header has exactly 8 columns, the first is `Name`, the other 7 are the days of the
week in order. -/
def HeaderWellFormed (line : List Char) : Prop :=
  (fieldsOf line).length = 8 ∧ (fieldsOf line)[0]? = some "Name" ∧ (fieldsOf line).drop 1 = days

/-- A data row has exactly 8 fields, a non-empty name, and 7 shift fields that are shift
codes. -/
def RowWellFormed (line : List Char) : Prop :=
  (fieldsOf line).length = 8 ∧ (fieldsOf line)[0]? ≠ some "" ∧
    ∀ f ∈ (fieldsOf line).drop 1, IsShiftCode f

/-- The table has a well-formed header line, and every further line is a well-formed row. -/
def TableWellFormed (text : String) : Prop :=
  ∃ header rows, pieces '\n' text.data = header :: rows ∧ HeaderWellFormed header ∧
    ∀ r ∈ rows, RowWellFormed r

/-! ## Sample tables -/

/-- The header line of a table, with its newline. -/
def headerLine : String :=
  "Name,Monday,Tuesday,Wednesday,Thursday,Friday,Saturday,Sunday\n"

/-- The table of the specification's import scenario. -/
def sampleTable : String :=
  headerLine ++ "Alice,M,A,E,N,M,A,E\nBob,M,M,M,M,M,N,N\n"

/-- The same preferences for Alice, written in lower case. -/
def lowercaseTable : String :=
  headerLine ++ "Alice,m,a,e,n,m,a,e\n"

/-- A table whose second data row has 7 fields. -/
def shortRowTable : String :=
  headerLine ++ "Alice,M,A,E,N,M,A,E\nBob,M,M,M,M,M,N\nCarol,N,N,N,N,N,N,N\n"

/-- Phase 1 has nothing left to do for the employee at position `i` in cell `(d, sh)`: the
employee cannot work the shift, or the cell has its 2 names. -/
def Exhausted (s : Scheduler) (i : Nat) (d : String) (sh : Shift) : Prop :=
  ∀ e, s.employees[i]? = some e → e.canWork d sh = false ∨ 2 ≤ (s.schedule d sh).length

/-! ## CSV export -/

/-- The `if`/`else if` cascade of `saveToCSV` that picks the code written for one employee
and one day. -/
def exportCode (e : Employee) (day : String) : String :=
  if e.canWork day Shift.MORNING then "M"
  else if e.canWork day Shift.AFTERNOON then "A"
  else if e.canWork day Shift.EVENING then "E"
  else "N"

/-- The loop `for (day : days) file << "," << day` of the header, on the text written so
far. -/
def writeHeaderDays (file : String) : List String → String
  | [] => file
  | day :: rest => writeHeaderDays (file ++ "," ++ day) rest

/-- The inner loop of `saveToCSV`: for each day a comma and the code of the employee. -/
def writeCodes (e : Employee) (file : String) : List String → String
  | [] => file
  | day :: rest => writeCodes e (file ++ "," ++ exportCode e day) rest

/-- The outer loop of `saveToCSV`: for each employee the name, the codes and `endl`. -/
def writeEmployees (file : String) : List Employee → String
  | [] => file
  | e :: rest => writeEmployees (writeCodes e (file ++ e.getName) days ++ "\n") rest

/-- The method `Scheduler::saveToCSV`: the text written to the file, `none` when the file
cannot be opened for writing (nothing is written then). -/
def Scheduler.saveToCSV (s : Scheduler) (is_open : Bool) : Option String :=
  if !is_open then none
  else some (writeEmployees (writeHeaderDays "Name" days ++ "\n") s.employees)

/-- The concatenation of a list of texts, in order. -/
def concatAll : List String → String
  | [] => ""
  | s :: rest => s ++ concatAll rest

/-- The line of the exported table for one employee: the name, then a comma and a code for
each day of the week, then the end of line. -/
def exportLine (e : Employee) : String :=
  e.name ++ concatAll (days.map (fun d => "," ++ exportCode e d)) ++ "\n"

/-- No cell of the grid holds more than 2 names. -/
def Capped (s : Scheduler) : Prop :=
  ∀ (d : String) (sh : Shift), (s.schedule d sh).length ≤ 2

/-- For every employee the assignment map has one entry per assigned day and the counter is
the number of its entries. -/
def CounterOk (s : Scheduler) : Prop :=
  ∀ e ∈ s.employees,
    (e.assigned_shifts.map Prod.fst).Nodup ∧
    (∀ d : String, e.isAssigned d = true ↔ d ∈ e.assigned_shifts.map Prod.fst) ∧
    e.days_worked = (e.assigned_shifts.length : Int)

/-! ## First fit, in the words of the specification -/

/-- The employee lists the shift for the day, as a test. -/
def Employee.lists (e : Employee) (day : String) (shift : Shift) : Bool :=
  match mapFind day e.preferred_shifts with
  | none => false
  | some prefs => decide (shift ∈ prefs)

/-- The earliest of Morning, Afternoon, Evening that the employee lists for the day, if
any. -/
def Employee.firstListed (e : Employee) (day : String) : Option Shift :=
  if e.lists day Shift.MORNING then some Shift.MORNING
  else if e.lists day Shift.AFTERNOON then some Shift.AFTERNOON
  else if e.lists day Shift.EVENING then some Shift.EVENING
  else none

/-- The days of the week, in week order, for which the employee lists at least one of
Morning, Afternoon, Evening. -/
def Employee.offeredDays (e : Employee) : List String :=
  days.filter (fun d => (e.firstListed d).isSome)

/-! ## Counting the iterations of the backfill loop -/

/-- The `while` loop of `resolveConflicts` for one cell, as `fillCell`, with two counters
added that the source does not have: the number of iterations that assign an employee and
the number of iterations that leave by `break`. -/
def fillCellCount (rng : Nat → Nat) (day : String) (shift : Shift) :
    Nat → World → Option (World × Nat × Nat)
  | 0, w => if (w.sched.schedule day shift).length < 2 then none else some (w, 0, 0)
  | fuel + 1, w =>
    if (w.sched.schedule day shift).length < 2 then
      if h : w.sched.pool day = [] then
        some ({ w with cout := w.cout ++ [warningLine day shift] }, 0, 1)
      else
        let avail := w.sched.pool day
        let selected := avail.get ⟨rng w.draws % avail.length,
          Nat.mod_lt _ (List.length_pos.mpr h)⟩
        match fillCellCount rng day shift fuel
            { w with sched := w.sched.assignShift selected day shift, draws := w.draws + 1 } with
        | some (w', assigns, breaks) => some (w', assigns + 1, breaks)
        | none => none
    else some (w, 0, 0)

/-! # Theorems -/


/-! ## Association lists -/

theorem mapFind_mapSet_self {α : Type} (key : String) (v : α) (m : List (String × α)) :
    mapFind key (mapSet key v m) = some v := by
  induction m with
  | nil => simp [mapSet, mapFind]
  | cons p m ih =>
    obtain ⟨k, w⟩ := p
    by_cases h : k = key
    · simp [mapSet, mapFind, h]
    · simp [mapSet, mapFind, h, ih]

theorem mapFind_mapSet_ne {α : Type} {key key' : String} (v : α) (m : List (String × α))
    (hne : key' ≠ key) : mapFind key' (mapSet key v m) = mapFind key' m := by
  induction m with
  | nil => simp [mapSet, mapFind, Ne.symm hne]
  | cons p m ih =>
    obtain ⟨k, w⟩ := p
    by_cases h : k = key
    · subst h
      simp [mapSet, mapFind, Ne.symm hne]
    · by_cases h' : k = key'
      · subst h'
        simp [mapSet, mapFind, h]
      · simp [mapSet, mapFind, h, h', ih]

theorem mapFind_eq_none_iff {α : Type} (key : String) (m : List (String × α)) :
    mapFind key m = none ↔ key ∉ m.map Prod.fst := by
  induction m with
  | nil => simp [mapFind]
  | cons p m ih =>
    obtain ⟨k, w⟩ := p
    by_cases h : k = key
    · simp [mapFind, h]
    · simp [mapFind, h, ih, Ne.symm h]

theorem mapSet_keys_of_none {α : Type} (key : String) (v : α) (m : List (String × α))
    (h : mapFind key m = none) : (mapSet key v m).map Prod.fst = m.map Prod.fst ++ [key] := by
  induction m with
  | nil => simp [mapSet]
  | cons p m ih =>
    obtain ⟨k, w⟩ := p
    by_cases hk : k = key
    · simp [mapFind, hk] at h
    · simp [mapFind, hk] at h
      simp [mapSet, hk, ih h]

theorem mapSet_length_of_none {α : Type} (key : String) (v : α) (m : List (String × α))
    (h : mapFind key m = none) : (mapSet key v m).length = m.length + 1 := by
  have := congrArg List.length (mapSet_keys_of_none key v m h)
  simpa using this

theorem mapSet_nodup_of_none {α : Type} (key : String) (v : α) (m : List (String × α))
    (h : mapFind key m = none) (hm : (m.map Prod.fst).Nodup) :
    ((mapSet key v m).map Prod.fst).Nodup := by
  rw [mapSet_keys_of_none key v m h]
  have hk := (mapFind_eq_none_iff key m).mp h
  exact List.Nodup.append hm (List.nodup_singleton key) (by simpa using hk)

/-! ## One employee -/

theorem Employee.assignShift_ok (e : Employee) (day : String) (shift : Shift)
    (h5 : e.days_worked < 5) (hfree : mapFind day e.assigned_shifts = none) (h : EmpOk e) :
    EmpOk (e.assignShift day shift) := by
  obtain ⟨hnd, hlen, _⟩ := h
  refine ⟨mapSet_nodup_of_none day shift _ hfree hnd, ?_, ?_⟩
  · simp only [Employee.assignShift, mapSet_length_of_none day shift _ hfree]
    push_cast
    omega
  · simp only [Employee.assignShift]
    omega

theorem Employee.assignShift_find (e : Employee) (day : String) (shift : Shift) (d : String) :
    mapFind d (e.assignShift day shift).assigned_shifts =
      if d = day then some shift else mapFind d e.assigned_shifts := by
  by_cases h : d = day
  · subst h
    simp [Employee.assignShift, mapFind_mapSet_self]
  · simp [Employee.assignShift, mapFind_mapSet_ne _ _ h, h]

/-! ## One call of `Scheduler::assignShift` -/

theorem countP_set {α : Type} (p : α → Bool) (l : List α) (i : Nat) (x a : α)
    (h : l[i]? = some a) :
    (l.set i x).countP p + (if p a then 1 else 0) = l.countP p + (if p x then 1 else 0) := by
  induction l generalizing i with
  | nil => simp at h
  | cons b l ih =>
    cases i with
    | zero =>
      simp at h
      subst h
      simp [List.countP_cons]
      omega
    | succ i =>
      simp at h
      have := ih i h
      simp [List.countP_cons]
      omega

theorem Scheduler.assignShift_employees (s : Scheduler) (i : Nat) (day : String) (shift : Shift)
    (e : Employee) (h : s.employees[i]? = some e) :
    (s.assignShift i day shift).employees = s.employees.set i (e.assignShift day shift) := by
  simp [Scheduler.assignShift, h]

theorem Scheduler.assignShift_schedule (s : Scheduler) (i : Nat) (day : String) (shift : Shift)
    (e : Employee) (h : s.employees[i]? = some e) :
    (s.assignShift i day shift).schedule = Scheduler.pushName s.schedule day shift e.name := by
  simp [Scheduler.assignShift, h, Employee.getName]

theorem step_empOk (s : Scheduler) (i : Nat) (day : String) (shift : Shift) (e : Employee)
    (h : s.employees[i]? = some e) (h5 : e.days_worked < 5)
    (hfree : mapFind day e.assigned_shifts = none) (hs : ∀ x ∈ s.employees, EmpOk x) :
    ∀ x ∈ (s.assignShift i day shift).employees, EmpOk x := by
  intro x hx
  rw [Scheduler.assignShift_employees s i day shift e h] at hx
  rcases List.mem_or_eq_of_mem_set hx with hx | hx
  · exact hs x hx
  · subst hx
    exact Employee.assignShift_ok e day shift h5 hfree (hs e (List.mem_iff_getElem?.mpr ⟨i, h⟩))

theorem step_gridOk (s : Scheduler) (i : Nat) (day : String) (shift : Shift) (e : Employee)
    (h : s.employees[i]? = some e) (hfree : mapFind day e.assigned_shifts = none)
    (hs : GridOk s) : GridOk (s.assignShift i day shift) := by
  intro d sh n
  rw [Scheduler.assignShift_employees s i day shift e h,
    Scheduler.assignShift_schedule s i day shift e h]
  have hc := countP_set (worksAs n d sh) s.employees i (e.assignShift day shift) e h
  have hg := hs d sh n
  have hname : (e.assignShift day shift).name = e.name := rfl
  by_cases hd : d = day
  · subst hd
    have h1 : worksAs n d sh e = false := by simp [worksAs, hfree]
    by_cases hsh : sh = shift
    · subst hsh
      have h2 : worksAs n d sh (e.assignShift d sh) = decide (e.name = n) := by
        simp [worksAs, Employee.assignShift_find, hname]
      rw [h1, h2] at hc
      simp only [Scheduler.pushName, and_self, if_true, List.count_append, List.count_singleton,
        beq_iff_eq]
      simp only [decide_eq_true_eq] at hc
      simp at hc
      omega
    · have h2 : worksAs n d sh (e.assignShift d shift) = false := by
        have hsh' : ¬ shift = sh := fun h => hsh h.symm
        simp [worksAs, Employee.assignShift_find, hsh']
      rw [h1, h2] at hc
      simp only [Scheduler.pushName, hsh, and_false, if_false]
      simp at hc
      omega
  · have h2 : worksAs n d sh (e.assignShift day shift) = worksAs n d sh e := by
      simp [worksAs, Employee.assignShift_find, hd, hname]
    rw [h2] at hc
    simp only [Scheduler.pushName, hd, false_and, if_false]
    omega

/-! ## Runs of assignments -/

theorem Reach.trans {s t u : Scheduler} (h1 : Reach s t) (h2 : Reach t u) : Reach s u := by
  induction h2 with
  | refl => exact h1
  | step i day shift e _ he h5 hfree ih => exact Reach.step i day shift e ih he h5 hfree

theorem Reach.single (s : Scheduler) (i : Nat) (day : String) (shift : Shift) (e : Employee)
    (he : s.employees[i]? = some e) (h5 : e.days_worked < 5)
    (hfree : mapFind day e.assigned_shifts = none) : Reach s (s.assignShift i day shift) :=
  Reach.step i day shift e (Reach.refl s) he h5 hfree

theorem Reach.empOk {s t : Scheduler} (h : Reach s t) (hs : ∀ x ∈ s.employees, EmpOk x) :
    ∀ x ∈ t.employees, EmpOk x := by
  induction h with
  | refl => exact hs
  | step i day shift e _ he h5 hfree ih => exact step_empOk _ i day shift e he h5 hfree ih

theorem Reach.gridOk {s t : Scheduler} (h : Reach s t) (hs : GridOk s) : GridOk t := by
  induction h with
  | refl => exact hs
  | step i day shift e _ he _ hfree ih => exact step_gridOk _ i day shift e he hfree ih

theorem Reach.names {s t : Scheduler} (h : Reach s t) :
    t.employees.map Employee.name = s.employees.map Employee.name := by
  induction h with
  | refl => rfl
  | @step t i day shift e _ he _ _ ih =>
    rw [Scheduler.assignShift_employees _ i day shift e he, List.map_set, ← ih]
    have hn : (e.assignShift day shift).name = e.name := rfl
    rw [hn]
    apply List.ext_getElem?
    intro j
    rw [List.getElem?_set]
    by_cases hij : i = j
    · subst hij
      simp [he]
      exact (List.getElem?_eq_some.mp he).1
    · simp [hij]

theorem Reach.length {s t : Scheduler} (h : Reach s t) :
    t.employees.length = s.employees.length := by
  have := congrArg List.length h.names
  simpa using this

theorem Reach.mono {s t : Scheduler} (h : Reach s t) :
    ∀ (j : Nat) (x : Employee), s.employees[j]? = some x →
      ∃ x', t.employees[j]? = some x' ∧ Employee.Extends x x' := by
  induction h with
  | refl => exact fun j x hx => ⟨x, hx, rfl, rfl, le_refl _, fun _ _ h => h⟩
  | @step t i day shift e _ he _ hfree ih =>
    intro j x hx
    obtain ⟨x', hx', hn, hp, hd, ha⟩ := ih j x hx
    rw [Scheduler.assignShift_employees _ i day shift e he, List.getElem?_set]
    by_cases hij : i = j
    · subst hij
      have hlt : i < t.employees.length := (List.getElem?_eq_some.mp he).1
      rw [he] at hx'
      cases hx'
      refine ⟨e.assignShift day shift, by simp [hlt], hn, hp, ?_, ?_⟩
      · simp only [Employee.assignShift]
        omega
      · intro d sh hdsh
        have h1 := ha d sh hdsh
        rw [Employee.assignShift_find]
        by_cases hdd : d = day
        · subst hdd
          rw [hfree] at h1
          cases h1
        · simp [hdd, h1]
    · exact ⟨x', by simp [hij, hx'], hn, hp, hd, ha⟩

theorem Reach.cell_grows {s t : Scheduler} (h : Reach s t) (d : String) (sh : Shift) :
    ∃ l, t.schedule d sh = s.schedule d sh ++ l := by
  induction h with
  | refl => exact ⟨[], by simp⟩
  | @step t i day shift e _ he _ _ ih =>
    obtain ⟨l, hl⟩ := ih
    rw [Scheduler.assignShift_schedule _ i day shift e he]
    by_cases hc : d = day ∧ sh = shift
    · obtain ⟨rfl, rfl⟩ := hc
      exact ⟨l ++ [e.name], by simp [Scheduler.pushName, hl]⟩
    · exact ⟨l, by simp [Scheduler.pushName, hc, hl]⟩

theorem Reach.cell_length_le {s t : Scheduler} (h : Reach s t) (d : String) (sh : Shift) :
    (s.schedule d sh).length ≤ (t.schedule d sh).length := by
  obtain ⟨l, hl⟩ := h.cell_grows d sh
  simp [hl]

/-! ## The pool of the backfill -/

theorem poolFrom_mem (day : String) (es : List Employee) (k i : Nat) :
    i ∈ Scheduler.poolFrom day k es ↔
      ∃ e, k ≤ i ∧ es[i - k]? = some e ∧ e.days_worked < 5 ∧
        mapFind day e.assigned_shifts = none := by
  induction es generalizing k with
  | nil => simp [Scheduler.poolFrom]
  | cons a es ih =>
    have key : ∀ (P : Prop), (i = k ∧ P ∨ i ∈ Scheduler.poolFrom day (k + 1) es) ↔
        ((i = k ∧ P) ∨ ∃ e, k + 1 ≤ i ∧ es[i - (k + 1)]? = some e ∧ e.days_worked < 5 ∧
          mapFind day e.assigned_shifts = none) := by
      intro P
      rw [ih (k + 1)]
    have hsplit : (∃ e, k ≤ i ∧ (a :: es)[i - k]? = some e ∧ e.days_worked < 5 ∧
          mapFind day e.assigned_shifts = none) ↔
        ((i = k ∧ (a.days_worked < 5 ∧ mapFind day a.assigned_shifts = none)) ∨
          ∃ e, k + 1 ≤ i ∧ es[i - (k + 1)]? = some e ∧ e.days_worked < 5 ∧
            mapFind day e.assigned_shifts = none) := by
      constructor
      · rintro ⟨e, hk, he, h5, hf⟩
        rcases Nat.eq_or_lt_of_le hk with hk' | hk'
        · subst hk'
          simp at he
          subst he
          exact Or.inl ⟨rfl, h5, hf⟩
        · right
          have : i - k = (i - (k + 1)) + 1 := by omega
          rw [this] at he
          simp at he
          exact ⟨e, hk', he, h5, hf⟩
      · rintro (⟨rfl, h5, hf⟩ | ⟨e, hk, he, h5, hf⟩)
        · exact ⟨a, le_refl _, by simp, h5, hf⟩
        · have : i - k = (i - (k + 1)) + 1 := by omega
          exact ⟨e, by omega, by rw [this]; simpa using he, h5, hf⟩
    rw [hsplit, ← key]
    by_cases hc : a.days_worked < 5 ∧ mapFind day a.assigned_shifts = none
    · have : (decide (a.getDaysWorked < 5) && !a.isAssigned day) = true := by
        simp [Employee.getDaysWorked, Employee.isAssigned, hc.1, hc.2]
      simp [Scheduler.poolFrom, this, hc]
    · have : (decide (a.getDaysWorked < 5) && !a.isAssigned day) = false := by
        simp only [Employee.getDaysWorked, Employee.isAssigned]
        by_cases h5 : a.days_worked < 5
        · have : mapFind day a.assigned_shifts ≠ none := fun h => hc ⟨h5, h⟩
          cases hm : mapFind day a.assigned_shifts with
          | none => exact absurd hm this
          | some v => simp
        · simp [h5]
      simp [Scheduler.poolFrom, this, hc]

theorem pool_mem (s : Scheduler) (day : String) (i : Nat) :
    i ∈ s.pool day ↔
      ∃ e, s.employees[i]? = some e ∧ e.days_worked < 5 ∧
        mapFind day e.assigned_shifts = none := by
  simp [Scheduler.pool, poolFrom_mem]

theorem pool_eq_nil_iff (s : Scheduler) (day : String) :
    s.pool day = [] ↔
      ∀ e ∈ s.employees, ¬ (e.days_worked < 5 ∧ mapFind day e.assigned_shifts = none) := by
  rw [List.eq_nil_iff_forall_not_mem]
  constructor
  · intro h e he hc
    obtain ⟨i, hi⟩ := List.mem_iff_getElem?.mp he
    exact h i ((pool_mem s day i).mpr ⟨e, hi, hc.1, hc.2⟩)
  · intro h i hi
    obtain ⟨e, he, h5, hf⟩ := (pool_mem s day i).mp hi
    exact h e (List.mem_iff_getElem?.mpr ⟨i, he⟩) ⟨h5, hf⟩

theorem Reach.pool_nil {s t : Scheduler} (h : Reach s t) (day : String)
    (hp : s.pool day = []) : t.pool day = [] := by
  rw [pool_eq_nil_iff] at hp ⊢
  intro x' hx' hc
  obtain ⟨j, hj⟩ := List.mem_iff_getElem?.mp hx'
  have hlt : j < s.employees.length := by
    rw [← h.length]
    exact (List.getElem?_eq_some.mp hj).1
  obtain ⟨y, hy, _, _, hd, ha⟩ := h.mono j _ (List.getElem?_eq_getElem hlt)
  rw [hj] at hy
  cases hy
  apply hp _ (List.getElem_mem hlt)
  refine ⟨by omega, ?_⟩
  cases hm : mapFind day (s.employees[j]).assigned_shifts with
  | none => rfl
  | some v =>
    rw [ha day v hm] at hc
    exact absurd hc.2 (by simp)

theorem Reach.cell_eq_of_pool_nil {s t : Scheduler} (h : Reach s t) (d : String)
    (hp : s.pool d = []) (sh : Shift) : t.schedule d sh = s.schedule d sh := by
  induction h with
  | refl => rfl
  | @step t i day shift e hr he h5 hfree ih =>
    rw [Scheduler.assignShift_schedule _ i day shift e he]
    have hne : d ≠ day := by
      intro hd
      subst hd
      have := hr.pool_nil d hp
      rw [pool_eq_nil_iff] at this
      exact this e (List.mem_iff_getElem?.mpr ⟨i, he⟩) ⟨h5, hfree⟩
    simp [Scheduler.pushName, hne, ih]

/-! ## Phase 1 -/

theorem Employee.canWork_iff (e : Employee) (day : String) (shift : Shift) :
    e.canWork day shift = true ↔
      mapFind day e.assigned_shifts = none ∧ e.days_worked < 5 ∧
        ∃ prefs, mapFind day e.preferred_shifts = some prefs ∧ shift ∈ prefs := by
  unfold Employee.canWork
  cases hp : mapFind day e.preferred_shifts with
  | none => simp
  | some prefs =>
    cases ha : mapFind day e.assigned_shifts with
    | none => simp
    | some v => simp

theorem foldl_reach {α : Type} (f : Scheduler → α → Scheduler)
    (hf : ∀ s a, Reach s (f s a)) (l : List α) (s : Scheduler) : Reach s (l.foldl f s) := by
  induction l generalizing s with
  | nil => exact Reach.refl s
  | cons a l ih => exact (hf s a).trans (ih (f s a))

theorem tryAssign_reach (i : Nat) (day : String) (shift : Shift) (s : Scheduler) :
    Reach s (Scheduler.tryAssign i day shift s) := by
  unfold Scheduler.tryAssign
  cases he : s.employees[i]? with
  | none => exact Reach.refl s
  | some e =>
    simp only
    split
    · rename_i hc
      simp only [Bool.and_eq_true] at hc
      obtain ⟨hf, h5, _⟩ := (Employee.canWork_iff e day shift).mp hc.1
      exact Reach.single s i day shift e he h5 hf
    · exact Reach.refl s

theorem phase1Day_reach (i : Nat) (s : Scheduler) (day : String) :
    Reach s (Scheduler.phase1Day i s day) :=
  ((tryAssign_reach i day Shift.MORNING s).trans (tryAssign_reach i day Shift.AFTERNOON _)).trans
    (tryAssign_reach i day Shift.EVENING _)

theorem phase1Emp_reach (s : Scheduler) (i : Nat) : Reach s (Scheduler.phase1Emp s i) :=
  foldl_reach (Scheduler.phase1Day i) (phase1Day_reach i) days s

theorem phase1_reach (s : Scheduler) : Reach s s.phase1 :=
  foldl_reach Scheduler.phase1Emp phase1Emp_reach _ s

theorem foldl_inv {α : Type} (P : Scheduler → Prop) (f : Scheduler → α → Scheduler)
    (hf : ∀ s a, P s → P (f s a)) (l : List α) (s : Scheduler) (hs : P s) : P (l.foldl f s) := by
  induction l generalizing s with
  | nil => exact hs
  | cons a l ih => exact ih (f s a) (hf s a hs)

theorem tryAssign_prefOk (i : Nat) (day : String) (shift : Shift) (s : Scheduler)
    (hs : PrefOk s) : PrefOk (Scheduler.tryAssign i day shift s) := by
  unfold Scheduler.tryAssign
  cases he : s.employees[i]? with
  | none => exact hs
  | some e =>
    simp only
    split
    · rename_i hc
      simp only [Bool.and_eq_true] at hc
      obtain ⟨hf, h5, prefs, hp, hmem⟩ := (Employee.canWork_iff e day shift).mp hc.1
      intro x hx d sh hd
      rw [Scheduler.assignShift_employees s i day shift e he] at hx
      rcases List.mem_or_eq_of_mem_set hx with hx | hx
      · exact hs x hx d sh hd
      · subst hx
        rw [Employee.assignShift_find] at hd
        have hpref : (e.assignShift day shift).preferred_shifts = e.preferred_shifts := rfl
        rw [hpref]
        by_cases hdd : d = day
        · subst hdd
          simp at hd
          subst hd
          exact ⟨prefs, hp, hmem⟩
        · simp [hdd] at hd
          exact hs e (List.mem_iff_getElem?.mpr ⟨i, he⟩) d sh hd
    · exact hs

theorem phase1_prefOk (s : Scheduler) (hs : PrefOk s) : PrefOk s.phase1 := by
  unfold Scheduler.phase1
  apply foldl_inv PrefOk _ _ _ _ hs
  intro s i hs
  unfold Scheduler.phase1Emp
  apply foldl_inv PrefOk _ _ _ _ hs
  intro s day hs
  exact tryAssign_prefOk i day _ _ (tryAssign_prefOk i day _ _ (tryAssign_prefOk i day _ _ hs))

/-! ## The backfill -/

theorem pool_get_good (s : Scheduler) (day : String) (k : Nat) (hk : k < (s.pool day).length) :
    ∃ e, s.employees[(s.pool day).get ⟨k, hk⟩]? = some e ∧ e.days_worked < 5 ∧
      mapFind day e.assigned_shifts = none :=
  (pool_mem s day _).mp (List.get_mem _ _ _)

theorem assignShift_cell_self (s : Scheduler) (i : Nat) (day : String) (shift : Shift)
    (e : Employee) (he : s.employees[i]? = some e) :
    (s.assignShift i day shift).schedule day shift = s.schedule day shift ++ [e.name] := by
  rw [Scheduler.assignShift_schedule s i day shift e he]
  simp [Scheduler.pushName]

/-- What the loop of one cell establishes when it ends. -/
theorem fillCell_post (rng : Nat → Nat) (day : String) (shift : Shift) (fuel : Nat) (w w' : World)
    (h : fillCell rng day shift fuel w = some w') :
    Reach w.sched w'.sched ∧ (∃ l, w'.cout = w.cout ++ l) ∧
      (2 ≤ (w'.sched.schedule day shift).length ∨
        (warningLine day shift ∈ w'.cout ∧ w'.sched.pool day = [])) := by
  induction fuel generalizing w with
  | zero =>
    unfold fillCell at h
    split at h
    · cases h
    · rename_i hc
      cases h
      exact ⟨Reach.refl _, ⟨[], by simp⟩, Or.inl (by omega)⟩
  | succ fuel ih =>
    unfold fillCell at h
    split at h
    · split at h
      · rename_i hp
        cases h
        exact ⟨Reach.refl _, ⟨[_], rfl⟩, Or.inr ⟨by simp, hp⟩⟩
      · rename_i hp
        simp only at h
        obtain ⟨e, he, h5, hf⟩ := pool_get_good w.sched day
          (rng w.draws % (w.sched.pool day).length) (Nat.mod_lt _ (List.length_pos.mpr hp))
        obtain ⟨hr, hl, hpost⟩ := ih _ h
        exact ⟨(Reach.single _ _ day shift e he h5 hf).trans hr, hl, hpost⟩
    · rename_i hc
      cases h
      exact ⟨Reach.refl _, ⟨[], by simp⟩, Or.inl (by omega)⟩

/-- The loop of one cell ends within the budget when the budget covers the missing names. -/
theorem fillCell_total (rng : Nat → Nat) (day : String) (shift : Shift) (fuel : Nat) (w : World)
    (hfuel : 2 ≤ fuel + (w.sched.schedule day shift).length) :
    ∃ w', fillCell rng day shift fuel w = some w' := by
  induction fuel generalizing w with
  | zero =>
    unfold fillCell
    rw [if_neg (by omega)]
    exact ⟨w, rfl⟩
  | succ fuel ih =>
    unfold fillCell
    split
    · split
      · exact ⟨_, rfl⟩
      · rename_i hp
        simp only
        obtain ⟨e, he, _, _⟩ := pool_get_good w.sched day
          (rng w.draws % (w.sched.pool day).length) (Nat.mod_lt _ (List.length_pos.mpr hp))
        apply ih
        simp only [assignShift_cell_self _ _ day shift e he, List.length_append,
          List.length_singleton]
        omega
    · exact ⟨w, rfl⟩

theorem resolveCells_nil (rng : Nat → Nat) (fuel : Nat) (w : World) :
    resolveCells rng fuel [] w = some w := rfl

theorem resolveCells_cons (rng : Nat → Nat) (fuel : Nat) (c : String × Shift)
    (cells : List (String × Shift)) (w : World) :
    resolveCells rng fuel (c :: cells) w =
      (fillCell rng c.1 c.2 fuel w).bind (resolveCells rng fuel cells) := by
  simp [resolveCells, List.foldlM_cons]

theorem resolveCells_append (rng : Nat → Nat) (fuel : Nat) (a b : List (String × Shift))
    (w : World) :
    resolveCells rng fuel (a ++ b) w =
      (resolveCells rng fuel a w).bind (resolveCells rng fuel b) := by
  induction a generalizing w with
  | nil => simp [resolveCells_nil]
  | cons c a ih =>
    rw [List.cons_append, resolveCells_cons, resolveCells_cons]
    cases fillCell rng c.1 c.2 fuel w with
    | none => rfl
    | some w1 => simpa using ih w1

theorem resolveDay_eq (rng : Nat → Nat) (fuel : Nat) (w : World) (day : String)
    (shs : List Shift) :
    shs.foldlM (fun w shift => fillCell rng day shift fuel w) w =
      resolveCells rng fuel (shs.map (fun sh => (day, sh))) w := by
  induction shs generalizing w with
  | nil => rfl
  | cons sh shs ih =>
    rw [List.map_cons, resolveCells_cons, List.foldlM_cons]
    cases fillCell rng day sh fuel w with
    | none => rfl
    | some w1 => simpa using ih w1

theorem resolveDays_eq (rng : Nat → Nat) (fuel : Nat) (w : World) (ds : List String) :
    ds.foldlM (resolveDay rng fuel) w =
      resolveCells rng fuel (ds.flatMap (fun d => shifts.map (fun sh => (d, sh)))) w := by
  induction ds generalizing w with
  | nil => rfl
  | cons d ds ih =>
    rw [List.flatMap_cons, resolveCells_append, List.foldlM_cons]
    have h1 : resolveDay rng fuel w d = resolveCells rng fuel (shifts.map (fun sh => (d, sh))) w :=
      resolveDay_eq rng fuel w d shifts
    rw [h1]
    cases resolveCells rng fuel (shifts.map (fun sh => (d, sh))) w with
    | none => rfl
    | some w1 => simpa using ih w1

/-- The nested loops of `resolveConflicts` visit the 21 cells in the order of `allCells`. -/
theorem resolveConflicts_eq (rng : Nat → Nat) (fuel : Nat) (w : World) :
    resolveConflicts rng fuel w = resolveCells rng fuel allCells w :=
  resolveDays_eq rng fuel w days

theorem resolveCells_total (rng : Nat → Nat) (fuel : Nat) (hfuel : 2 ≤ fuel)
    (cells : List (String × Shift)) (w : World) :
    ∃ w', resolveCells rng fuel cells w = some w' := by
  induction cells generalizing w with
  | nil => exact ⟨w, rfl⟩
  | cons c cells ih =>
    obtain ⟨w1, h1⟩ := fillCell_total rng c.1 c.2 fuel w (by omega)
    obtain ⟨w2, h2⟩ := ih w1
    exact ⟨w2, by rw [resolveCells_cons, h1]; exact h2⟩

theorem resolveCells_reach (rng : Nat → Nat) (fuel : Nat) (cells : List (String × Shift))
    (w w' : World) (h : resolveCells rng fuel cells w = some w') :
    Reach w.sched w'.sched ∧ ∃ l, w'.cout = w.cout ++ l := by
  induction cells generalizing w with
  | nil =>
    cases h
    exact ⟨Reach.refl _, [], by simp⟩
  | cons c cells ih =>
    rw [resolveCells_cons] at h
    cases h1 : fillCell rng c.1 c.2 fuel w with
    | none => simp [h1] at h
    | some w1 =>
      rw [h1] at h
      obtain ⟨hr1, ⟨l1, hl1⟩, _⟩ := fillCell_post rng c.1 c.2 fuel w w1 h1
      obtain ⟨hr2, l2, hl2⟩ := ih w1 h
      exact ⟨hr1.trans hr2, l1 ++ l2, by rw [hl2, hl1, List.append_assoc]⟩

theorem resolveCells_post (rng : Nat → Nat) (fuel : Nat) (cells : List (String × Shift))
    (w w' : World) (h : resolveCells rng fuel cells w = some w') :
    ∀ c ∈ cells, 2 ≤ (w'.sched.schedule c.1 c.2).length ∨
      (warningLine c.1 c.2 ∈ w'.cout ∧ w'.sched.pool c.1 = []) := by
  induction cells generalizing w with
  | nil => simp
  | cons c cells ih =>
    rw [resolveCells_cons] at h
    cases h1 : fillCell rng c.1 c.2 fuel w with
    | none => simp [h1] at h
    | some w1 =>
      rw [h1] at h
      intro c' hc'
      rcases List.mem_cons.mp hc' with rfl | hc'
      · obtain ⟨_, _, hpost⟩ := fillCell_post rng c'.1 c'.2 fuel w w1 h1
        obtain ⟨hr2, l2, hl2⟩ := resolveCells_reach rng fuel cells w1 w' h
        rcases hpost with h2 | ⟨hw, hp⟩
        · exact Or.inl (le_trans h2 (hr2.cell_length_le _ _))
        · exact Or.inr ⟨by rw [hl2]; exact List.mem_append_left _ hw, hr2.pool_nil _ hp⟩
      · exact ih w1 h c' hc'

theorem mem_allCells (d : String) (sh : Shift) (hd : d ∈ days) (hsh : sh ∈ shifts) :
    (d, sh) ∈ allCells := by
  simp only [allCells, List.mem_flatMap, List.mem_map]
  exact ⟨d, hd, sh, hsh, rfl⟩

/-- The whole of `generateSchedule` from a state: it returns, by a run of assignments. -/
theorem generateSchedule_run (rng : Nat → Nat) (fuel : Nat) (hfuel : 2 ≤ fuel) (w : World) :
    ∃ w', generateSchedule rng fuel w = some w' ∧ Reach w.sched w'.sched ∧
      Reach w.sched.phase1 w'.sched ∧ Settled w'.sched := by
  obtain ⟨w', hw'⟩ := resolveCells_total rng fuel hfuel allCells { w with sched := w.sched.phase1 }
  have hgen : generateSchedule rng fuel w = some w' := by
    rw [generateSchedule, resolveConflicts_eq]
    exact hw'
  obtain ⟨hr, _⟩ := resolveCells_reach rng fuel allCells _ w' hw'
  refine ⟨w', hgen, (phase1_reach w.sched).trans hr, hr, ?_⟩
  intro d hd sh hsh
  rcases resolveCells_post rng fuel allCells _ w' hw' (d, sh) (mem_allCells d sh hd hsh) with h | h
  · exact Or.inl h
  · exact Or.inr h.2

theorem start_empOk (emps : List Employee)
    (hfresh : ∀ e ∈ emps, e.assigned_shifts = [] ∧ e.days_worked = 0) :
    ∀ x ∈ (World.start emps).sched.employees, EmpOk x := by
  intro x hx
  obtain ⟨ha, hd⟩ := hfresh x hx
  refine ⟨by simp [ha], by simp [ha, hd], by omega⟩

theorem start_gridOk (emps : List Employee)
    (hfresh : ∀ e ∈ emps, e.assigned_shifts = [] ∧ e.days_worked = 0) :
    GridOk (World.start emps).sched := by
  intro d sh n
  have : List.countP (worksAs n d sh) emps = 0 := by
    rw [List.countP_eq_zero]
    intro e he
    simp [worksAs, (hfresh e he).1, mapFind]
  simp [World.start, Scheduler.new, this]

/-! ## The contract of `generateSchedule` -/

theorem assigned_days_le (e : Employee) (ds : List String) (hnd : ds.Nodup)
    (hds : ∀ d ∈ ds, e.isAssigned d = true) : ds.length ≤ e.assigned_shifts.length := by
  have hsub : ds ⊆ e.assigned_shifts.map Prod.fst := by
    intro d hd
    have h := hds d hd
    by_contra hc
    have := (mapFind_eq_none_iff d e.assigned_shifts).mpr hc
    simp [Employee.isAssigned, this] at h
  have := (List.subperm_of_subset hnd hsub).length_le
  simpa using this

/-- C1: on a fresh scheduler holding any employee list, for any random picks,
`generateSchedule` returns, and afterwards every employee's days-worked counter is at most 5
and the employee has a recorded assignment on at most 5 days (the assignment map has at most
5 entries, and no duplicate-free list of assigned days is longer than 5). -/
theorem generateSchedule_at_most_five_days (emps : List Employee) (rng : Nat → Nat) (fuel : Nat)
    (hfresh : Fresh emps) (hfuel : 2 ≤ fuel) :
    ∃ w', generateSchedule rng fuel (World.start emps) = some w' ∧
      ∀ e ∈ w'.sched.employees,
        e.days_worked ≤ 5 ∧ e.assigned_shifts.length ≤ 5 ∧
        ∀ ds : List String, ds.Nodup → (∀ d ∈ ds, e.isAssigned d = true) → ds.length ≤ 5 := by
  obtain ⟨w', hgen, hr, _, _⟩ := generateSchedule_run rng fuel hfuel (World.start emps)
  refine ⟨w', hgen, ?_⟩
  intro e he
  obtain ⟨_, hlen, h5⟩ := hr.empOk (start_empOk emps hfresh) e he
  have hl : e.assigned_shifts.length ≤ 5 := by omega
  exact ⟨h5, hl, fun ds hnd hds => le_trans (assigned_days_le e ds hnd hds) hl⟩

theorem generateSchedule_at_most_five_days_witness :
    Fresh [aliceMondayMorning, bobEvenings] ∧ 2 ≤ 2 ∧
    ∃ w', generateSchedule (fun k => k) 2 (World.start [aliceMondayMorning, bobEvenings]) = some w' ∧
      ∀ e ∈ w'.sched.employees,
        e.days_worked ≤ 5 ∧ e.assigned_shifts.length ≤ 5 ∧
        ∀ ds : List String, ds.Nodup → (∀ d ∈ ds, e.isAssigned d = true) → ds.length ≤ 5 :=
  have hfresh : Fresh [aliceMondayMorning, bobEvenings] := by
    intro e he
    simp only [List.mem_cons, List.mem_singleton, List.not_mem_nil, or_false] at he
    rcases he with rfl | rfl <;> exact ⟨rfl, rfl⟩
  ⟨hfresh, le_refl 2,
    generateSchedule_at_most_five_days [aliceMondayMorning, bobEvenings] (fun k => k) 2 hfresh
      (le_refl 2)⟩

theorem worksAs_three_le (n d : String) (l : List Employee) :
    l.countP (worksAs n d Shift.MORNING) + l.countP (worksAs n d Shift.AFTERNOON) +
      l.countP (worksAs n d Shift.EVENING) ≤ l.countP (fun e => decide (e.name = n)) := by
  induction l with
  | nil => simp
  | cons a l ih =>
    simp only [List.countP_cons]
    have key : (if worksAs n d Shift.MORNING a = true then 1 else 0) +
        (if worksAs n d Shift.AFTERNOON a = true then 1 else 0) +
        (if worksAs n d Shift.EVENING a = true then 1 else 0) ≤
        (if decide (a.name = n) = true then 1 else 0) := by
      by_cases hn : a.name = n
      · cases hm : mapFind d a.assigned_shifts with
        | none => simp [worksAs, hn, hm]
        | some v => cases v <;> simp [worksAs, hn, hm]
      · simp [worksAs, hn]
    omega

theorem countP_name_le_one (n : String) (l : List Employee)
    (hnd : (l.map Employee.name).Nodup) : l.countP (fun e => decide (e.name = n)) ≤ 1 := by
  induction l with
  | nil => simp
  | cons a l ih =>
    rw [List.map_cons, List.nodup_cons] at hnd
    have ih' := ih hnd.2
    rw [List.countP_cons]
    by_cases hn : a.name = n
    · have : l.countP (fun e => decide (e.name = n)) = 0 := by
        rw [List.countP_eq_zero]
        intro e he
        simp only [decide_eq_true_eq]
        intro hen
        exact hnd.1 (List.mem_map.mpr ⟨e, he, by rw [hen, hn]⟩)
      rw [this]
      split <;> omega
    · simp [hn]
      exact ih'

/-- C2: on a fresh scheduler whose employees have pairwise distinct names, for any random
picks, `generateSchedule` returns, and afterwards every name occurs at most once in total
across the Morning, Afternoon and Evening cells of any one day. -/
theorem generateSchedule_one_shift_per_day (emps : List Employee) (rng : Nat → Nat) (fuel : Nat)
    (hfresh : Fresh emps) (hnames : (emps.map Employee.name).Nodup) (hfuel : 2 ≤ fuel) :
    ∃ w', generateSchedule rng fuel (World.start emps) = some w' ∧
      ∀ (n d : String),
        (w'.sched.schedule d Shift.MORNING).count n +
          (w'.sched.schedule d Shift.AFTERNOON).count n +
          (w'.sched.schedule d Shift.EVENING).count n ≤ 1 := by
  obtain ⟨w', hgen, hr, _, _⟩ := generateSchedule_run rng fuel hfuel (World.start emps)
  refine ⟨w', hgen, ?_⟩
  intro n d
  have hg := hr.gridOk (start_gridOk emps hfresh)
  rw [hg d Shift.MORNING n, hg d Shift.AFTERNOON n, hg d Shift.EVENING n]
  have hnd : (w'.sched.employees.map Employee.name).Nodup := by
    rw [hr.names]
    exact hnames
  exact le_trans (worksAs_three_le n d _) (countP_name_le_one n _ hnd)

theorem generateSchedule_one_shift_per_day_witness :
    Fresh [bobEvenings, aliceMondayMorning] ∧
    ([bobEvenings, aliceMondayMorning].map Employee.name).Nodup ∧ 2 ≤ 3 ∧
    ∃ w', generateSchedule (fun _ => 1) 3 (World.start [bobEvenings, aliceMondayMorning]) = some w' ∧
      ∀ (n d : String),
        (w'.sched.schedule d Shift.MORNING).count n +
          (w'.sched.schedule d Shift.AFTERNOON).count n +
          (w'.sched.schedule d Shift.EVENING).count n ≤ 1 :=
  have hfresh : Fresh [bobEvenings, aliceMondayMorning] := by
    intro e he
    simp only [List.mem_cons, List.mem_singleton, List.not_mem_nil, or_false] at he
    rcases he with rfl | rfl <;> exact ⟨rfl, rfl⟩
  have hnames : ([bobEvenings, aliceMondayMorning].map Employee.name).Nodup := by decide
  ⟨hfresh, hnames, by decide,
    generateSchedule_one_shift_per_day [bobEvenings, aliceMondayMorning] (fun _ => 1) 3 hfresh
      hnames (by decide)⟩

/-- C3: on a fresh scheduler holding any employee list, for any random picks,
`generateSchedule` returns, and for every day `D` of the week and every shift `S` of
Morning, Afternoon, Evening the final cell `(D, S)` holds at least 2 names, or else the
shortfall warning for `(D, S)` was written and in the state `wmid` in which the backfill left
that cell (its loop ended by the `break` that follows an empty pool, which changes no
employee) no employee had fewer than 5 days worked while being unassigned on `D`; the rest of
the backfill leads from `wmid` to the final state and no longer touches the cell. -/
theorem generateSchedule_coverage_or_shortfall (emps : List Employee) (rng : Nat → Nat)
    (fuel : Nat) (hfuel : 2 ≤ fuel) :
    ∃ w', generateSchedule rng fuel (World.start emps) = some w' ∧
      ∀ D ∈ days, ∀ S ∈ shifts,
        2 ≤ (w'.sched.schedule D S).length ∨
        (warningLine D S ∈ w'.cout ∧
          ∃ pre post wmid, allCells = pre ++ (D, S) :: post ∧
            resolveCells rng fuel (pre ++ [(D, S)])
              { World.start emps with sched := (World.start emps).sched.phase1 } = some wmid ∧
            resolveCells rng fuel post wmid = some w' ∧
            wmid.sched.pool D = [] ∧
            (∀ e ∈ wmid.sched.employees, ¬ (e.days_worked < 5 ∧ e.isAssigned D = false)) ∧
            wmid.sched.schedule D S = w'.sched.schedule D S) := by
  obtain ⟨w', hgen, _, _, _⟩ := generateSchedule_run rng fuel hfuel (World.start emps)
  refine ⟨w', hgen, ?_⟩
  intro D hD S hS
  rw [generateSchedule, resolveConflicts_eq] at hgen
  obtain ⟨pre, post, hsplit⟩ := List.append_of_mem (mem_allCells D S hD hS)
  have hsplit' : allCells = (pre ++ [(D, S)]) ++ post := by simp [hsplit]
  obtain ⟨wmid, hmid⟩ := resolveCells_total rng fuel hfuel (pre ++ [(D, S)])
    { World.start emps with sched := (World.start emps).sched.phase1 }
  have hrest : resolveCells rng fuel post wmid = some w' := by
    rw [hsplit', resolveCells_append, hmid] at hgen
    exact hgen
  obtain ⟨hr, l, hl⟩ := resolveCells_reach rng fuel post wmid w' hrest
  rcases resolveCells_post rng fuel _ _ wmid hmid (D, S) (by simp) with h | ⟨hw, hp⟩
  · exact Or.inl (le_trans h (hr.cell_length_le D S))
  · refine Or.inr ⟨by rw [hl]; exact List.mem_append_left _ hw, pre, post, wmid, hsplit, hmid,
      hrest, hp, ?_, (hr.cell_eq_of_pool_nil D hp S).symm⟩
    intro e he hc
    apply (pool_eq_nil_iff wmid.sched D).mp hp e he
    refine ⟨hc.1, ?_⟩
    have h2 := hc.2
    simp only [Employee.isAssigned] at h2
    cases hm : mapFind D e.assigned_shifts with
    | none => rfl
    | some v => simp [hm] at h2

theorem generateSchedule_coverage_or_shortfall_witness :
    2 ≤ 2 ∧
    ∃ w', generateSchedule (fun _ => 0) 2 (World.start [aliceMondayMorning]) = some w' ∧
      ∀ D ∈ days, ∀ S ∈ shifts,
        2 ≤ (w'.sched.schedule D S).length ∨
        (warningLine D S ∈ w'.cout ∧
          ∃ pre post wmid, allCells = pre ++ (D, S) :: post ∧
            resolveCells (fun _ => 0) 2 (pre ++ [(D, S)])
              { World.start [aliceMondayMorning] with
                sched := (World.start [aliceMondayMorning]).sched.phase1 } = some wmid ∧
            resolveCells (fun _ => 0) 2 post wmid = some w' ∧
            wmid.sched.pool D = [] ∧
            (∀ e ∈ wmid.sched.employees, ¬ (e.days_worked < 5 ∧ e.isAssigned D = false)) ∧
            wmid.sched.schedule D S = w'.sched.schedule D S) :=
  ⟨le_refl 2,
    generateSchedule_coverage_or_shortfall [aliceMondayMorning] (fun _ => 0) 2 (le_refl 2)⟩

/-- C4, as stated, fails: a single employee who lists only Morning on Monday is drafted by
the backfill for Morning on Tuesday, a shift she did not list for that day. -/
theorem generateSchedule_drafts_unlisted_shift :
    ∃ w', generateSchedule (fun _ => 0) 2 (World.start [aliceMondayMorning]) = some w' ∧
      ∃ e ∈ w'.sched.employees,
        mapFind "Tuesday" e.assigned_shifts = some Shift.MORNING ∧
        ¬ Prefers e "Tuesday" Shift.MORNING := by
  refine ⟨_, rfl, ?_⟩
  refine ⟨{ aliceMondayMorning with
      assigned_shifts := [("Monday", Shift.MORNING), ("Tuesday", Shift.MORNING),
        ("Wednesday", Shift.MORNING), ("Thursday", Shift.MORNING), ("Friday", Shift.MORNING)]
      days_worked := 5 }, ?_, ?_, ?_⟩
  · decide
  · decide
  · rintro ⟨prefs, hp, _⟩
    simp [aliceMondayMorning, mapFind] at hp

/-- C4, amended: on a fresh scheduler holding any employee list, for any random picks,
`generateSchedule` returns, and every recorded assignment of shift `S` on day `D` is either
a shift the employee lists for `D`, or was made by the backfill: the employee at that
position had no assignment for `D` when phase 1 ended. -/
theorem generateSchedule_preferred_or_drafted (emps : List Employee) (rng : Nat → Nat)
    (fuel : Nat) (hfresh : Fresh emps) (hfuel : 2 ≤ fuel) :
    ∃ w', generateSchedule rng fuel (World.start emps) = some w' ∧
      ∀ (i : Nat) (e : Employee), w'.sched.employees[i]? = some e →
        ∀ (D : String) (S : Shift), mapFind D e.assigned_shifts = some S →
          Prefers e D S ∨
          ∃ e1, (World.start emps).sched.phase1.employees[i]? = some e1 ∧
            e1.isAssigned D = false := by
  obtain ⟨w', hgen, _, hr, _⟩ := generateSchedule_run rng fuel hfuel (World.start emps)
  refine ⟨w', hgen, ?_⟩
  intro i e he D S hDS
  have hlt : i < (World.start emps).sched.phase1.employees.length := by
    rw [← hr.length]
    exact (List.getElem?_eq_some.mp he).1
  have he1 := List.getElem?_eq_getElem hlt
  obtain ⟨x, hx, _, hpref, _, hkeep⟩ := hr.mono i _ he1
  rw [he] at hx
  cases hx
  have hp1 : PrefOk (World.start emps).sched.phase1 := by
    apply phase1_prefOk
    intro x hx d sh hd
    rw [(hfresh x hx).1] at hd
    simp [mapFind] at hd
  cases hm : mapFind D ((World.start emps).sched.phase1.employees[i]).assigned_shifts with
  | none => exact Or.inr ⟨_, he1, by simp [Employee.isAssigned, hm]⟩
  | some S1 =>
    left
    have := hkeep D S1 hm
    rw [hDS] at this
    cases this
    obtain ⟨prefs, hp, hmem⟩ := hp1 _ (List.getElem_mem hlt) D S hm
    exact ⟨prefs, by rw [hpref]; exact hp, hmem⟩

theorem generateSchedule_preferred_or_drafted_witness :
    Fresh [aliceMondayMorning] ∧ 2 ≤ 2 ∧
    ∃ w', generateSchedule (fun _ => 0) 2 (World.start [aliceMondayMorning]) = some w' ∧
      ∀ (i : Nat) (e : Employee), w'.sched.employees[i]? = some e →
        ∀ (D : String) (S : Shift), mapFind D e.assigned_shifts = some S →
          Prefers e D S ∨
          ∃ e1, (World.start [aliceMondayMorning]).sched.phase1.employees[i]? = some e1 ∧
            e1.isAssigned D = false :=
  have hfresh : Fresh [aliceMondayMorning] := by
    intro e he
    simp only [List.mem_singleton] at he
    subst he
    exact ⟨rfl, rfl⟩
  ⟨hfresh, le_refl 2,
    generateSchedule_preferred_or_drafted [aliceMondayMorning] (fun _ => 0) 2 hfresh (le_refl 2)⟩

/-! ## `canWork` -/

/-- C5: for every employee state, day and shift, `canWork(day, shift)` is true exactly when
the employee has no recorded assignment for the day, has worked fewer than 5 days, and lists
the shift for the day; a day without a preference entry gives false. -/
theorem canWork_true_iff (e : Employee) (day : String) (shift : Shift) :
    (e.canWork day shift = true ↔
      e.isAssigned day = false ∧ e.getDaysWorked < 5 ∧
        ∃ prefs, mapFind day e.preferred_shifts = some prefs ∧ shift ∈ prefs) ∧
    (mapFind day e.preferred_shifts = none → e.canWork day shift = false) := by
  constructor
  · rw [Employee.canWork_iff]
    have : e.isAssigned day = false ↔ mapFind day e.assigned_shifts = none := by
      cases hm : mapFind day e.assigned_shifts <;> simp [Employee.isAssigned, hm]
    rw [this]
    rfl
  · intro h
    simp [Employee.canWork, h]

/-! ## A second call of `generateSchedule` -/

theorem foldl_fixed {α : Type} (f : Scheduler → α → Scheduler) (l : List α) (s : Scheduler)
    (hf : ∀ a ∈ l, f s a = s) : l.foldl f s = s := by
  induction l with
  | nil => rfl
  | cons a l ih =>
    rw [List.foldl_cons, hf a (List.mem_cons_self a l)]
    exact ih (fun b hb => hf b (List.mem_cons_of_mem a hb))

theorem tryAssign_settled (i : Nat) (day : String) (shift : Shift) (s : Scheduler)
    (hs : Settled s) (hd : day ∈ days) (hsh : shift ∈ shifts) :
    Scheduler.tryAssign i day shift s = s := by
  unfold Scheduler.tryAssign
  cases he : s.employees[i]? with
  | none => rfl
  | some e =>
    simp only
    split
    · rename_i hc
      simp only [Bool.and_eq_true, decide_eq_true_eq] at hc
      obtain ⟨hf, h5, _⟩ := (Employee.canWork_iff e day shift).mp hc.1
      rcases hs day hd shift hsh with h2 | hp
      · omega
      · exact absurd ⟨h5, hf⟩
          ((pool_eq_nil_iff s day).mp hp e (List.mem_iff_getElem?.mpr ⟨i, he⟩))
    · rfl

theorem phase1_settled (s : Scheduler) (hs : Settled s) : s.phase1 = s := by
  unfold Scheduler.phase1
  apply foldl_fixed
  intro i _
  unfold Scheduler.phase1Emp
  apply foldl_fixed
  intro day hd
  unfold Scheduler.phase1Day
  rw [tryAssign_settled i day Shift.MORNING s hs hd (by simp [shifts]),
    tryAssign_settled i day Shift.AFTERNOON s hs hd (by simp [shifts]),
    tryAssign_settled i day Shift.EVENING s hs hd (by simp [shifts])]

theorem fillCell_settled (rng : Nat → Nat) (day : String) (shift : Shift) (fuel : Nat)
    (w w' : World) (hs : Settled w.sched) (hd : day ∈ days) (hsh : shift ∈ shifts)
    (h : fillCell rng day shift fuel w = some w') :
    w'.sched = w.sched ∧ w'.draws = w.draws := by
  cases fuel with
  | zero =>
    unfold fillCell at h
    split at h
    · cases h
    · cases h
      exact ⟨rfl, rfl⟩
  | succ fuel =>
    unfold fillCell at h
    split at h
    · rename_i hlt
      split at h
      · cases h
        exact ⟨rfl, rfl⟩
      · rename_i hp
        rcases hs day hd shift hsh with h2 | hp'
        · omega
        · exact absurd hp' hp
    · cases h
      exact ⟨rfl, rfl⟩

theorem resolveCells_settled (rng : Nat → Nat) (fuel : Nat) (cells : List (String × Shift))
    (hcells : ∀ c ∈ cells, c.1 ∈ days ∧ c.2 ∈ shifts) (w w' : World) (hs : Settled w.sched)
    (h : resolveCells rng fuel cells w = some w') :
    w'.sched = w.sched ∧ w'.draws = w.draws := by
  induction cells generalizing w with
  | nil =>
    cases h
    exact ⟨rfl, rfl⟩
  | cons c cells ih =>
    rw [resolveCells_cons] at h
    cases h1 : fillCell rng c.1 c.2 fuel w with
    | none => simp [h1] at h
    | some w1 =>
      rw [h1] at h
      obtain ⟨hc1, hc2⟩ := hcells c (List.mem_cons_self c cells)
      obtain ⟨hs1, hd1⟩ := fillCell_settled rng c.1 c.2 fuel w w1 hs hc1 hc2 h1
      obtain ⟨hs2, hd2⟩ := ih (fun c' hc' => hcells c' (List.mem_cons_of_mem c hc')) w1
        (by rw [hs1]; exact hs) h
      exact ⟨by rw [hs2, hs1], by rw [hd2, hd1]⟩

theorem allCells_mem (c : String × Shift) (hc : c ∈ allCells) : c.1 ∈ days ∧ c.2 ∈ shifts := by
  simp only [allCells, List.mem_flatMap, List.mem_map] at hc
  obtain ⟨d, hd, sh, hsh, rfl⟩ := hc
  exact ⟨hd, hsh⟩

/-- Whenever `generateSchedule` returns, no cell of the week is both short and fillable. -/
theorem generateSchedule_settled (rng : Nat → Nat) (fuel : Nat) (w w' : World)
    (h : generateSchedule rng fuel w = some w') : Settled w'.sched := by
  rw [generateSchedule, resolveConflicts_eq] at h
  intro d hd sh hsh
  rcases resolveCells_post rng fuel allCells _ w' h (d, sh) (mem_allCells d sh hd hsh) with h2 | h2
  · exact Or.inl h2
  · exact Or.inr h2.2

/-- On a state in which no cell is both short and fillable, `generateSchedule` changes neither
the employees nor the grid and draws no random number. -/
theorem generateSchedule_of_settled (rng : Nat → Nat) (fuel : Nat) (w w' : World)
    (hs : Settled w.sched) (h : generateSchedule rng fuel w = some w') :
    w'.sched = w.sched ∧ w'.draws = w.draws := by
  rw [generateSchedule, resolveConflicts_eq, phase1_settled w.sched hs] at h
  exact resolveCells_settled rng fuel allCells allCells_mem _ w' hs h

/-- C6, as stated, fails: there is no employee list, and there are no random picks, for which
a second call of `generateSchedule` changes a grid cell or increases a days-worked counter. -/
theorem generateSchedule_second_call_changes_nothing :
    ¬ ∃ (emps : List Employee) (rng rng2 : Nat → Nat) (fuel fuel2 : Nat) (w1 w2 : World),
        Fresh emps ∧
        generateSchedule rng fuel (World.start emps) = some w1 ∧
        generateSchedule rng2 fuel2 w1 = some w2 ∧
        ((∃ (d : String) (sh : Shift), w2.sched.schedule d sh ≠ w1.sched.schedule d sh) ∨
         (∃ (i : Nat) (e1 e2 : Employee), w1.sched.employees[i]? = some e1 ∧
            w2.sched.employees[i]? = some e2 ∧ e1.days_worked < e2.days_worked)) := by
  rintro ⟨emps, rng, rng2, fuel, fuel2, w1, w2, _, h1, h2, hch⟩
  have hs := generateSchedule_settled rng fuel _ w1 h1
  obtain ⟨heq, _⟩ := generateSchedule_of_settled rng2 fuel2 w1 w2 hs h2
  rcases hch with ⟨d, sh, hne⟩ | ⟨i, e1, e2, he1, he2, hlt⟩
  · exact hne (by rw [heq])
  · rw [heq, he1] at he2
    cases he2
    omega

/-- C6, amended: on the schedule state `generateSchedule` is idempotent. On a scheduler
holding any employee list, for any random picks of the two calls, both calls return, and the
second call leaves the employees (assignments and counters) and every grid cell as the first
call left them and draws no random number; it can only write warnings again. -/
theorem generateSchedule_idempotent (emps : List Employee) (rng rng2 : Nat → Nat)
    (fuel fuel2 : Nat) (hfuel : 2 ≤ fuel) (hfuel2 : 2 ≤ fuel2) :
    ∃ w1 w2, generateSchedule rng fuel (World.start emps) = some w1 ∧
      generateSchedule rng2 fuel2 w1 = some w2 ∧
      w2.sched.employees = w1.sched.employees ∧
      w2.sched.schedule = w1.sched.schedule ∧
      w2.draws = w1.draws ∧
      ∃ l, w2.cout = w1.cout ++ l := by
  obtain ⟨w1, h1, _, _, hs⟩ := generateSchedule_run rng fuel hfuel (World.start emps)
  obtain ⟨w2, h2, _, _, _⟩ := generateSchedule_run rng2 fuel2 hfuel2 w1
  obtain ⟨heq, hdr⟩ := generateSchedule_of_settled rng2 fuel2 w1 w2 hs h2
  refine ⟨w1, w2, h1, h2, by rw [heq], by rw [heq], hdr, ?_⟩
  have h2' := h2
  rw [generateSchedule, resolveConflicts_eq] at h2'
  exact (resolveCells_reach rng2 fuel2 allCells _ w2 h2').2

theorem generateSchedule_idempotent_witness :
    2 ≤ 2 ∧ 2 ≤ 2 ∧
    ∃ w1 w2, generateSchedule (fun _ => 0) 2 (World.start [aliceMondayMorning, bobEvenings]) = some w1 ∧
      generateSchedule (fun _ => 1) 2 w1 = some w2 ∧
      w2.sched.employees = w1.sched.employees ∧
      w2.sched.schedule = w1.sched.schedule ∧
      w2.draws = w1.draws ∧
      ∃ l, w2.cout = w1.cout ++ l :=
  ⟨le_refl 2, le_refl 2,
    generateSchedule_idempotent [aliceMondayMorning, bobEvenings] (fun _ => 0) (fun _ => 1) 2 2
      (le_refl 2) (le_refl 2)⟩

/-! ## Tokens -/

theorem getlineAll_eq_pieces (sep : Char) (text : List Char) :
    getlineAll sep text = pieces sep text := by
  induction text with
  | nil => simp [getlineAll, pieces, List.splitOn]
  | cons c cs ih =>
    unfold pieces at ih ⊢
    unfold List.splitOn at ih ⊢
    rw [List.splitOnP_cons]
    obtain ⟨p, ps, hps⟩ : ∃ p ps, List.splitOnP (fun x => x == sep) cs = p :: ps := by
      cases h : List.splitOnP (fun x => x == sep) cs with
      | nil => exact absurd h (List.splitOnP_ne_nil _ _)
      | cons p ps => exact ⟨p, ps, rfl⟩
    rw [hps] at ih ⊢
    by_cases hc : c = sep
    · subst hc
      simp only [getlineAll, if_true, beq_self_eq_true, ih]
      simp only [List.getLast?_cons_cons]
      by_cases hl : (p :: ps).getLast? = some []
      · simp [hl, List.dropLast]
      · simp [hl]
    · have hb : (c == sep) = false := by simpa using hc
      simp only [getlineAll, hc, if_false, hb, List.modifyHead, ih, Bool.false_eq_true]
      cases ps with
      | nil =>
        cases p with
        | nil => simp
        | cons x xs => simp
      | cons q qs =>
        simp only [List.getLast?_cons_cons]
        by_cases hl : (q :: qs).getLast? = some []
        · simp [hl, List.dropLast]
        · simp [hl]

theorem erase_front_eq (token : List Char) :
    (match find_first_not_of whitespace token with
      | none => []
      | some n => token.drop n) =
      token.dropWhile (fun c => decide (c ∈ whitespace)) := by
  induction token with
  | nil => rfl
  | cons c cs ih =>
    by_cases hc : c ∈ whitespace
    · simp only [find_first_not_of, hc, if_true, List.dropWhile_cons, decide_True]
      rw [← ih]
      cases find_first_not_of whitespace cs with
      | none => rfl
      | some n => rfl
    · simp [find_first_not_of, hc, List.dropWhile_cons]

theorem find_last_not_of_lt (set : List Char) (s : List Char) (j : Nat)
    (h : find_last_not_of set s = some j) : j < s.length := by
  induction s generalizing j with
  | nil => simp [find_last_not_of] at h
  | cons c cs ih =>
    unfold find_last_not_of at h
    cases hf : find_last_not_of set cs with
    | some i =>
      rw [hf] at h
      simp only [Option.some.injEq] at h
      have := ih i hf
      simp only [List.length_cons]
      omega
    | none =>
      rw [hf] at h
      simp only at h
      split at h
      · cases h
      · simp only [Option.some.injEq] at h
        simp only [List.length_cons]
        omega

theorem find_last_not_of_concat (set : List Char) (s : List Char) (x : Char) :
    find_last_not_of set (s ++ [x]) =
      if x ∈ set then find_last_not_of set s else some s.length := by
  induction s with
  | nil =>
    by_cases hx : x ∈ set <;> simp [find_last_not_of, hx]
  | cons c cs ih =>
    rw [List.cons_append]
    unfold find_last_not_of
    rw [ih]
    by_cases hx : x ∈ set
    · simp only [hx, if_true]
    · simp only [hx, if_false, List.length_cons]

theorem erase_back_eq (token : List Char) :
    token.take (match find_last_not_of whitespace token with
      | none => 0
      | some j => j + 1) =
      token.rdropWhile (fun c => decide (c ∈ whitespace)) := by
  induction token using List.reverseRecOn with
  | nil => rfl
  | append_singleton s x ih =>
    rw [find_last_not_of_concat, List.rdropWhile_concat]
    by_cases hx : x ∈ whitespace
    · simp only [hx, if_true, decide_True]
      rw [← ih]
      cases hf : find_last_not_of whitespace s with
      | none => simp
      | some j =>
        have := find_last_not_of_lt _ _ _ hf
        simp only
        rw [List.take_append_of_le_length (by omega)]
    · simp [hx]

/-- The two `erase` calls remove exactly the surrounding whitespace. -/
theorem trimToken_eq_trimmed (token : List Char) : trimToken token = trimmed token := by
  unfold trimToken trimmed
  simp only
  rw [erase_front_eq, erase_back_eq]

theorem trimmedTokens_eq_fieldsOf (line : List Char) : trimmedTokens line = fieldsOf line := by
  unfold trimmedTokens fieldsOf
  rw [getlineAll_eq_pieces]
  apply List.map_congr_left
  intro t _
  rw [trimToken_eq_trimmed]

/-! ## Shift codes -/

theorem toNat_ofNat_small (n : Nat) (h : n < 55296) : (Char.ofNat n).toNat = n := by
  unfold Char.ofNat
  rw [dif_pos (Or.inl h)]
  rfl

theorem toUpper_eq_iff (c u : Char) (hu : 65 ≤ u.toNat ∧ u.toNat ≤ 90) :
    c.toUpper = u ↔ c = u ∨ c = Char.ofNat (u.toNat + 32) := by
  constructor
  · intro h
    unfold Char.toUpper at h
    simp only at h
    split at h
    · right
      have h1 := congrArg Char.toNat h
      rw [toNat_ofNat_small _ (by omega)] at h1
      have : c.toNat = u.toNat + 32 := by omega
      rw [← this, Char.ofNat_toNat]
    · exact Or.inl h
  · rintro (rfl | rfl)
    · unfold Char.toUpper
      simp only
      rw [if_neg (by omega)]
    · unfold Char.toUpper
      simp only
      rw [toNat_ofNat_small _ (by omega), if_pos (by omega)]
      have : u.toNat + 32 - 32 = u.toNat := by omega
      rw [this, Char.ofNat_toNat]

theorem string_mk_eq_iff (a b : List Char) : String.mk a = String.mk b ↔ a = b :=
  ⟨fun h => congrArg String.data h, fun h => by rw [h]⟩

theorem toupper_eq_iff (field : String) (u : Char) (hu : 65 ≤ u.toNat ∧ u.toNat ≤ 90) :
    toupper field = String.mk [u] ↔
      field = String.mk [u] ∨ field = String.mk [Char.ofNat (u.toNat + 32)] := by
  obtain ⟨cs⟩ := field
  simp only [toupper, string_mk_eq_iff]
  cases cs with
  | nil => simp
  | cons c cs =>
    cases cs with
    | nil =>
      simp only [List.map_cons, List.map_nil, List.cons.injEq, and_true]
      exact toUpper_eq_iff c u hu
    | cons d ds => simp

theorem upperM (field : String) : toupper field = "M" ↔ field = "M" ∨ field = "m" :=
  toupper_eq_iff field 'M' ⟨by decide, by decide⟩
theorem upperA (field : String) : toupper field = "A" ↔ field = "A" ∨ field = "a" :=
  toupper_eq_iff field 'A' ⟨by decide, by decide⟩
theorem upperE (field : String) : toupper field = "E" ↔ field = "E" ∨ field = "e" :=
  toupper_eq_iff field 'E' ⟨by decide, by decide⟩
theorem upperN (field : String) : toupper field = "N" ↔ field = "N" ∨ field = "n" :=
  toupper_eq_iff field 'N' ⟨by decide, by decide⟩

theorem isShiftCode_iff (field : String) :
    ¬ (toupper field ≠ "M" ∧ toupper field ≠ "A" ∧ toupper field ≠ "E" ∧ toupper field ≠ "N") ↔
      IsShiftCode field := by
  unfold IsShiftCode
  rw [← or_assoc, ← upperM, ← or_assoc (a := field = "A"), ← upperA,
    ← or_assoc (a := field = "E"), ← upperE, ← upperN]
  generalize toupper field = x
  by_cases h1 : x = "M" <;> by_cases h2 : x = "A" <;> by_cases h3 : x = "E" <;>
    by_cases h4 : x = "N" <;> simp [h1, h2, h3, h4]

/-! ## `validateCSVFormat` -/

theorem validateDayColumns_none_iff (header : List String) (i : Nat) (ds : List String) :
    validateDayColumns header i ds = none ↔ ds <+: header.drop (i + 1) := by
  induction ds generalizing i with
  | nil => simp [validateDayColumns]
  | cons d ds ih =>
    unfold validateDayColumns
    by_cases hlt : i + 1 < header.length
    · rw [List.drop_eq_getElem_cons hlt, List.cons_prefix_cons]
      have hget : header.getD (i + 1) "" = header[i + 1] := by
        rw [List.getD_eq_getElem?_getD, List.getElem?_eq_getElem hlt]
        rfl
      rw [hget]
      by_cases hd : header[i + 1] = d
      · rw [if_neg (by simp only [hd, ne_eq, not_true_eq_false, or_false]; omega), ih (i + 1)]
        simp [hd]
      · rw [if_pos (Or.inr hd)]
        simp [Ne.symm hd]
    · rw [if_pos (Or.inl (by omega)), List.drop_of_length_le (by omega)]
      simp

theorem validateShiftCodes_none_iff (row_num i : Nat) (fs : List String) :
    validateShiftCodes row_num i fs = none ↔ ∀ f ∈ fs, IsShiftCode f := by
  induction fs generalizing i with
  | nil => simp [validateShiftCodes]
  | cons f fs ih =>
    unfold validateShiftCodes
    simp only
    by_cases hc : IsShiftCode f
    · rw [if_neg ((isShiftCode_iff f).mpr hc), ih (i + 1)]
      simp [hc]
    · rw [if_pos (by
        by_contra hn
        exact hc ((isShiftCode_iff f).mp hn))]
      simp [hc]

theorem rowCheck_iff (row_num : Nat) (line : List Char) :
    ((trimmedTokens line).length = 8 ∧ (trimmedTokens line).getD 0 "" ≠ "" ∧
      validateShiftCodes row_num 1 ((trimmedTokens line).drop 1) = none) ↔
      RowWellFormed line := by
  unfold RowWellFormed
  rw [trimmedTokens_eq_fieldsOf, validateShiftCodes_none_iff]
  constructor
  · rintro ⟨h8, hname, hcodes⟩
    refine ⟨h8, ?_, hcodes⟩
    intro h0
    apply hname
    rw [List.getD_eq_getElem?_getD, h0]
    rfl
  · rintro ⟨h8, hname, hcodes⟩
    refine ⟨h8, ?_, hcodes⟩
    intro h0
    apply hname
    have hlt : 0 < (fieldsOf line).length := by omega
    rw [List.getD_eq_getElem?_getD, List.getElem?_eq_getElem hlt] at h0
    rw [List.getElem?_eq_getElem hlt]
    exact congrArg some h0

theorem validateRows_good (row_num : Nat) (line : List Char) (rest : List (List Char))
    (h : RowWellFormed line) :
    validateRows row_num (line :: rest) = validateRows (row_num + 1) rest := by
  obtain ⟨h8, hname, hcodes⟩ := (rowCheck_iff row_num line).mpr h
  conv_lhs => unfold validateRows
  simp only [h8, ne_eq, not_true_eq_false, if_false, hname, hcodes]

theorem validateRows_bad (row_num : Nat) (line : List Char) (rest : List (List Char))
    (h : ¬ RowWellFormed line) : (validateRows row_num (line :: rest)).1 = false := by
  unfold validateRows
  simp only
  split
  · rfl
  · rename_i h8
    split
    · rfl
    · rename_i hname
      cases hc : validateShiftCodes row_num 1 ((trimmedTokens line).drop 1) with
      | some err => rfl
      | none =>
        exfalso
        apply h
        exact (rowCheck_iff row_num line).mp ⟨by simpa using h8, hname, hc⟩

theorem validateRows_true_iff (row_num : Nat) (rows : List (List Char)) :
    (validateRows row_num rows).1 = true ↔ ∀ r ∈ rows, RowWellFormed r := by
  induction rows generalizing row_num with
  | nil => simp [validateRows]
  | cons line rest ih =>
    by_cases h : RowWellFormed line
    · rw [validateRows_good row_num line rest h, ih (row_num + 1)]
      simp [h]
    · rw [validateRows_bad row_num line rest h]
      simp [h]

theorem headerCheck_iff (line : List Char) :
    ((trimmedTokens line).length = 8 ∧ (trimmedTokens line).getD 0 "" = "Name" ∧
      validateDayColumns (trimmedTokens line) 0 days = none) ↔ HeaderWellFormed line := by
  unfold HeaderWellFormed
  rw [trimmedTokens_eq_fieldsOf, validateDayColumns_none_iff]
  constructor
  · rintro ⟨h8, hname, hdays⟩
    have hlt : 0 < (fieldsOf line).length := by omega
    refine ⟨h8, ?_, ?_⟩
    · rw [List.getD_eq_getElem?_getD, List.getElem?_eq_getElem hlt] at hname
      rw [List.getElem?_eq_getElem hlt]
      exact congrArg some hname
    · have hlen : ((fieldsOf line).drop (0 + 1)).length = days.length := by
        rw [List.length_drop, h8]
        rfl
      exact (hdays.eq_of_length hlen.symm).symm
  · rintro ⟨h8, hname, hdays⟩
    refine ⟨h8, ?_, ?_⟩
    · rw [List.getD_eq_getElem?_getD, hname]
      rfl
    · rw [show 0 + 1 = 1 from rfl, hdays]

/-- C8: for every readable table text (the empty one included), `validateCSVFormat` returns
success exactly when the table is well-formed: the header has exactly 8 comma-separated
columns, the first is `Name`, the other 7 are Monday to Sunday in order, and every data row
has exactly 8 fields, a non-empty name and 7 shift fields that are M, A, E or N compared
case-insensitively, all fields being compared after trimming surrounding whitespace. -/
theorem validateCSVFormat_true_iff (text : String) :
    (validateCSVFormat (some text)).1 = true ↔ TableWellFormed text := by
  unfold validateCSVFormat TableWellFormed
  simp only
  rw [getlineAll_eq_pieces]
  cases hl : pieces '\n' text.data with
  | nil => simp
  | cons line rows =>
    have key : (∃ header rows', line :: rows = header :: rows' ∧ HeaderWellFormed header ∧
        ∀ r ∈ rows', RowWellFormed r) ↔ (HeaderWellFormed line ∧ ∀ r ∈ rows, RowWellFormed r) := by
      constructor
      · rintro ⟨_, _, heq, hh, hr⟩
        cases heq
        exact ⟨hh, hr⟩
      · rintro ⟨hh, hr⟩
        exact ⟨line, rows, rfl, hh, hr⟩
    rw [key]
    by_cases hh : HeaderWellFormed line
    · obtain ⟨h8, hname, hdays⟩ := (headerCheck_iff line).mpr hh
      simp only [h8, ne_eq, not_true_eq_false, if_false, hname, hdays]
      rw [validateRows_true_iff]
      simp [hh]
    · simp only [hh, false_and, iff_false, Bool.not_eq_true]
      split
      · rfl
      · rename_i h8
        split
        · rfl
        · rename_i hname
          cases hd : validateDayColumns (trimmedTokens line) 0 days with
          | some err => rfl
          | none =>
            exfalso
            exact hh ((headerCheck_iff line).mp ⟨by simpa using h8, by simpa using hname, hd⟩)

/-! ## `loadFromCSV` -/

/-- C7, at the failing input: the table with Alice's codes in lower case is accepted by
`validateCSVFormat`, and `loadFromCSV` succeeds on it, but the employee it creates has no
preference at all: `shiftFromCode` is applied to the raw field and compares it with the
upper-case letters only. -/
theorem loadFromCSV_drops_lowercase_codes :
    (validateCSVFormat (some lowercaseTable)).1 = true ∧
    (Scheduler.new.loadFromCSV (some lowercaseTable)).1 = true ∧
    (Scheduler.new.loadFromCSV (some lowercaseTable)).2.employees = [Employee.new "Alice"] ∧
    mapFind "Monday" (Employee.new "Alice").preferred_shifts = none := by
  decide

/-- The import scenario of the specification, in upper case, gives the preferences of the
table. -/
theorem loadFromCSV_sampleTable :
    (Scheduler.new.loadFromCSV (some sampleTable)).1 = true ∧
    (Scheduler.new.loadFromCSV (some sampleTable)).2.employees =
      [{ name := "Alice"
         preferred_shifts := [("Monday", [Shift.MORNING]), ("Tuesday", [Shift.AFTERNOON]),
           ("Wednesday", [Shift.EVENING]), ("Friday", [Shift.MORNING]),
           ("Saturday", [Shift.AFTERNOON]), ("Sunday", [Shift.EVENING])]
         assigned_shifts := [], days_worked := 0 },
       { name := "Bob"
         preferred_shifts := [("Monday", [Shift.MORNING]), ("Tuesday", [Shift.MORNING]),
           ("Wednesday", [Shift.MORNING]), ("Thursday", [Shift.MORNING]),
           ("Friday", [Shift.MORNING])]
         assigned_shifts := [], days_worked := 0 }] := by
  decide

/-- C9: for every file that `validateCSVFormat` rejects, unreadable files included,
`loadFromCSV` returns false and leaves the scheduler, employees and grid, as it was. -/
theorem loadFromCSV_rejected_unchanged (s : Scheduler) (file : Option String)
    (h : (validateCSVFormat file).1 = false) :
    (s.loadFromCSV file).1 = false ∧ (s.loadFromCSV file).2 = s ∧
      (s.loadFromCSV file).2.employees = s.employees ∧
      (s.loadFromCSV file).2.schedule = s.schedule := by
  unfold Scheduler.loadFromCSV
  rw [if_pos h]
  exact ⟨rfl, rfl, rfl, rfl⟩

theorem loadFromCSV_rejected_unchanged_witness :
    (validateCSVFormat (some shortRowTable)).1 = false ∧
    ((Scheduler.new.addEmployee "Dave").loadFromCSV (some shortRowTable)).1 = false ∧
    ((Scheduler.new.addEmployee "Dave").loadFromCSV (some shortRowTable)).2 =
      Scheduler.new.addEmployee "Dave" ∧
    ((Scheduler.new.addEmployee "Dave").loadFromCSV (some shortRowTable)).2.employees =
      (Scheduler.new.addEmployee "Dave").employees ∧
    ((Scheduler.new.addEmployee "Dave").loadFromCSV (some shortRowTable)).2.schedule =
      (Scheduler.new.addEmployee "Dave").schedule :=
  ⟨by decide, loadFromCSV_rejected_unchanged (Scheduler.new.addEmployee "Dave")
    (some shortRowTable) (by decide)⟩

/-! ## The row-size error -/

theorem validateRows_skip (row_num : Nat) (good tail : List (List Char))
    (hgood : ∀ r ∈ good, RowWellFormed r) :
    validateRows row_num (good ++ tail) = validateRows (row_num + good.length) tail := by
  induction good generalizing row_num with
  | nil => rfl
  | cons r good ih =>
    rw [List.cons_append, validateRows_good row_num r _ (hgood r (List.mem_cons_self r good)),
      ih (row_num + 1) (fun x hx => hgood x (List.mem_cons_of_mem r hx)), List.length_cons]
    congr 1
    omega

/-- C10: for every table text with a well-formed header whose first `k - 1` data rows
(`good`) are well-formed and whose `k`-th data row (`bad`) has a number of fields other than
8, `validateCSVFormat` fails with the row-size message for file line `k + 1` (the header
being line 1), which states the expected count 8 and the count found. -/
theorem validateCSVFormat_row_size (text : String) (header : List Char)
    (good : List (List Char)) (bad : List Char) (rest : List (List Char))
    (hlines : pieces '\n' text.data = header :: (good ++ bad :: rest))
    (hheader : HeaderWellFormed header) (hgood : ∀ r ∈ good, RowWellFormed r)
    (hbad : (fieldsOf bad).length ≠ 8) :
    validateCSVFormat (some text) =
      (false, msgRowSize (good.length + 1 + 1) (fieldsOf bad).length) ∧
    msgRowSize (good.length + 1 + 1) (fieldsOf bad).length =
      msgFormat ++ "Invalid number of columns in row " ++ toString (good.length + 1 + 1) ++ ".\n" ++
      "Expected 8 columns, but found " ++ toString (fieldsOf bad).length ++ " columns.\n" ++
      "Please ensure each row has values for Name and all 7 days of the week." := by
  refine ⟨?_, rfl⟩
  unfold validateCSVFormat
  simp only
  rw [getlineAll_eq_pieces, hlines]
  obtain ⟨h8, hname, hdays⟩ := (headerCheck_iff header).mpr hheader
  simp only [h8, ne_eq, not_true_eq_false, if_false, hname, hdays]
  rw [validateRows_skip 2 good _ hgood]
  unfold validateRows
  simp only
  rw [trimmedTokens_eq_fieldsOf, if_pos hbad]
  congr 2
  omega

theorem validateCSVFormat_row_size_witness :
    pieces '\n' shortRowTable.data =
      "Name,Monday,Tuesday,Wednesday,Thursday,Friday,Saturday,Sunday".data ::
        (["Alice,M,A,E,N,M,A,E".data] ++ "Bob,M,M,M,M,M,N".data :: ["Carol,N,N,N,N,N,N,N".data]) ∧
    HeaderWellFormed "Name,Monday,Tuesday,Wednesday,Thursday,Friday,Saturday,Sunday".data ∧
    (∀ r ∈ ["Alice,M,A,E,N,M,A,E".data], RowWellFormed r) ∧
    (fieldsOf "Bob,M,M,M,M,M,N".data).length ≠ 8 ∧
    validateCSVFormat (some shortRowTable) =
      (false, msgRowSize (["Alice,M,A,E,N,M,A,E".data].length + 1 + 1)
        (fieldsOf "Bob,M,M,M,M,M,N".data).length) ∧
    msgRowSize (["Alice,M,A,E,N,M,A,E".data].length + 1 + 1)
        (fieldsOf "Bob,M,M,M,M,M,N".data).length =
      msgFormat ++ "Invalid number of columns in row " ++
      toString (["Alice,M,A,E,N,M,A,E".data].length + 1 + 1) ++ ".\n" ++
      "Expected 8 columns, but found " ++ toString (fieldsOf "Bob,M,M,M,M,M,N".data).length ++
      " columns.\n" ++
      "Please ensure each row has values for Name and all 7 days of the week." :=
  have hlines : pieces '\n' shortRowTable.data =
      "Name,Monday,Tuesday,Wednesday,Thursday,Friday,Saturday,Sunday".data ::
        (["Alice,M,A,E,N,M,A,E".data] ++ "Bob,M,M,M,M,M,N".data ::
          ["Carol,N,N,N,N,N,N,N".data]) := by decide
  have hheader :
      HeaderWellFormed "Name,Monday,Tuesday,Wednesday,Thursday,Friday,Saturday,Sunday".data := by
    unfold HeaderWellFormed
    decide
  have hgood : ∀ r ∈ ["Alice,M,A,E,N,M,A,E".data], RowWellFormed r := by
    intro r hr
    rw [List.mem_singleton] at hr
    subst hr
    unfold RowWellFormed IsShiftCode
    decide
  have hbad : (fieldsOf "Bob,M,M,M,M,M,N".data).length ≠ 8 := by decide
  ⟨hlines, hheader, hgood, hbad,
    validateCSVFormat_row_size shortRowTable _ _ _ _ hlines hheader hgood hbad⟩

/-- The validation scenario of the specification: the row with 7 fields is reported as row 3,
with the expected count 8 and the count 7. -/
theorem validateCSVFormat_shortRowTable :
    validateCSVFormat (some shortRowTable) =
      (false, "Error: The input CSV file cannot be used because it does not follow the required format.\nFirst error encountered: Invalid number of columns in row 3.\nExpected 8 columns, but found 7 columns.\nPlease ensure each row has values for Name and all 7 days of the week.") := by
  decide

/-! ## What phase 1 leaves to the backfill -/

theorem Employee.canWork_false_of_extends (e e' : Employee) (d : String) (sh : Shift)
    (hx : Employee.Extends e e') (h : e.canWork d sh = false) : e'.canWork d sh = false := by
  obtain ⟨_, hp, hd, ha⟩ := hx
  cases hc : e'.canWork d sh with
  | false => rfl
  | true =>
    obtain ⟨hf, h5, prefs, hpr, hm⟩ := (Employee.canWork_iff e' d sh).mp hc
    have : e.canWork d sh = true := by
      rw [Employee.canWork_iff]
      refine ⟨?_, by omega, prefs, by rw [← hp]; exact hpr, hm⟩
      cases hm' : mapFind d e.assigned_shifts with
      | none => rfl
      | some v =>
        rw [ha d v hm'] at hf
        cases hf
    rw [this] at h
    cases h

theorem exhausted_of_reach {s t : Scheduler} (h : Reach s t) (i : Nat) (d : String) (sh : Shift)
    (hs : Exhausted s i d sh) : Exhausted t i d sh := by
  intro e' he'
  have hlt : i < s.employees.length := by
    rw [← h.length]
    exact (List.getElem?_eq_some.mp he').1
  obtain ⟨x, hx, hext⟩ := h.mono i _ (List.getElem?_eq_getElem hlt)
  rw [he'] at hx
  cases hx
  rcases hs _ (List.getElem?_eq_getElem hlt) with hc | hc
  · exact Or.inl (Employee.canWork_false_of_extends _ _ d sh hext hc)
  · exact Or.inr (le_trans hc (h.cell_length_le d sh))

theorem tryAssign_exhausted (i : Nat) (d : String) (sh : Shift) (s : Scheduler) :
    Exhausted (Scheduler.tryAssign i d sh s) i d sh := by
  unfold Scheduler.tryAssign
  cases he : s.employees[i]? with
  | none =>
    intro e h
    simp only at h
    rw [he] at h
    cases h
  | some e =>
    simp only
    split
    · intro e' he'
      rw [Scheduler.assignShift_employees s i d sh e he, List.getElem?_set] at he'
      simp only [if_true] at he'
      split at he'
      · cases he'
        left
        cases hc : (e.assignShift d sh).canWork d sh with
        | false => rfl
        | true =>
          have := ((Employee.canWork_iff _ d sh).mp hc).1
          rw [Employee.assignShift_find] at this
          simp at this
      · cases he'
    · rename_i hc
      intro e' he'
      rw [he] at he'
      cases he'
      simp only [Bool.and_eq_true, decide_eq_true_eq, not_and, not_lt] at hc
      cases hw : e.canWork d sh with
      | false => exact Or.inl rfl
      | true => exact Or.inr (hc hw)

theorem foldl_establish {α : Type} (f : Scheduler → α → Scheduler) (P : α → Scheduler → Prop)
    (hreach : ∀ s a, Reach s (f s a)) (hP : ∀ s a, P a (f s a))
    (hmono : ∀ a s t, Reach s t → P a s → P a t) (l : List α) (s : Scheduler) :
    ∀ a ∈ l, P a (l.foldl f s) := by
  induction l generalizing s with
  | nil => simp
  | cons b l ih =>
    intro a ha
    rcases List.mem_cons.mp ha with rfl | ha
    · exact hmono a _ _ (foldl_reach f hreach l (f s a)) (hP s a)
    · exact ih (f s b) a ha

theorem phase1Day_exhausted (i : Nat) (s : Scheduler) (d : String) :
    ∀ sh ∈ shifts, Exhausted (Scheduler.phase1Day i s d) i d sh := by
  intro sh hsh
  simp only [shifts, List.mem_cons, List.mem_singleton, List.not_mem_nil, or_false] at hsh
  unfold Scheduler.phase1Day
  rcases hsh with rfl | rfl | rfl
  · exact exhausted_of_reach
      ((tryAssign_reach i d Shift.AFTERNOON _).trans (tryAssign_reach i d Shift.EVENING _))
      i d _ (tryAssign_exhausted i d Shift.MORNING s)
  · exact exhausted_of_reach (tryAssign_reach i d Shift.EVENING _) i d _
      (tryAssign_exhausted i d Shift.AFTERNOON _)
  · exact tryAssign_exhausted i d Shift.EVENING _

theorem phase1Emp_exhausted (s : Scheduler) (i : Nat) :
    ∀ d ∈ days, ∀ sh ∈ shifts, Exhausted (Scheduler.phase1Emp s i) i d sh :=
  foldl_establish (Scheduler.phase1Day i) (fun d t => ∀ sh ∈ shifts, Exhausted t i d sh)
    (phase1Day_reach i) (phase1Day_exhausted i)
    (fun d _ _ hr hs sh hsh => exhausted_of_reach hr i d sh (hs sh hsh)) days s

theorem phase1_exhausted (s : Scheduler) (i : Nat) :
    ∀ d ∈ days, ∀ sh ∈ shifts, Exhausted s.phase1 i d sh := by
  by_cases hi : i < s.employees.length
  · exact foldl_establish Scheduler.phase1Emp
      (fun i t => ∀ d ∈ days, ∀ sh ∈ shifts, Exhausted t i d sh)
      phase1Emp_reach phase1Emp_exhausted
      (fun i _ _ hr hs d hd sh hsh => exhausted_of_reach hr i d sh (hs d hd sh hsh))
      (List.range s.employees.length) s i (List.mem_range.mpr hi)
  · intro d _ sh _ e he
    have := (List.getElem?_eq_some.mp he).1
    rw [(phase1_reach s).length] at this
    omega

theorem getAvailableFrom_nil (day : String) (shift : Shift) (k : Nat) (es : List Employee)
    (h : ∀ e ∈ es, e.canWork day shift = false) :
    Scheduler.getAvailableFrom day shift k es = [] := by
  induction es generalizing k with
  | nil => rfl
  | cons e es ih =>
    unfold Scheduler.getAvailableFrom
    rw [h e (List.mem_cons_self e es)]
    simp only [Bool.false_eq_true, if_false]
    exact ih (k + 1) (fun x hx => h x (List.mem_cons_of_mem e hx))

/-- When phase 1 ends, a cell of the week that is short of 2 names has no employee left who
can work it by preference: `getAvailableEmployees` is empty for it, so only a pool that
ignores the preferences can add a name to the cell. -/
theorem phase1_leaves_no_preferred (s : Scheduler) (d : String) (sh : Shift) (hd : d ∈ days)
    (hsh : sh ∈ shifts) (hshort : (s.phase1.schedule d sh).length < 2) :
    s.phase1.getAvailableEmployees d sh = [] := by
  apply getAvailableFrom_nil
  intro e he
  obtain ⟨i, hi⟩ := List.mem_iff_getElem?.mp he
  rcases phase1_exhausted s i d hd sh hsh e hi with h | h
  · exact h
  · omega

/-! ## The grid after phase 1 -/

theorem gridOk_mem (s : Scheduler) (hg : GridOk s) (d : String) (sh : Shift) (n : String)
    (hn : n ∈ s.schedule d sh) :
    ∃ e ∈ s.employees, e.name = n ∧ mapFind d e.assigned_shifts = some sh := by
  have hpos : 0 < (s.schedule d sh).count n := List.count_pos_iff.mpr hn
  rw [hg d sh n] at hpos
  obtain ⟨e, he, hw⟩ := List.countP_pos_iff.mp hpos
  simp only [worksAs, decide_eq_true_eq] at hw
  exact ⟨e, he, hw.1, hw.2⟩

theorem phase1_entry_preferred (emps : List Employee) (hfresh : Fresh emps) (D : String)
    (S : Shift) (n : String) (hn : n ∈ (World.start emps).sched.phase1.schedule D S) :
    ∃ e ∈ (World.start emps).sched.phase1.employees, e.name = n ∧ Prefers e D S := by
  have hg := (phase1_reach (World.start emps).sched).gridOk (start_gridOk emps hfresh)
  have hp : PrefOk (World.start emps).sched.phase1 := by
    apply phase1_prefOk
    intro x hx d sh hd
    rw [(hfresh x hx).1] at hd
    simp [mapFind] at hd
  obtain ⟨e, he, hname, ha⟩ := gridOk_mem _ hg D S n hn
  exact ⟨e, he, hname, hp e he D S ha⟩

/-- C11: on a fresh scheduler whose employees have pairwise distinct names, in the state
between phase 1 and the backfill every recorded assignment is a shift the employee lists for
the day, every name in a grid cell `(D, S)` is the name of an employee, and the employee of
that name lists `S` for `D`; hence, `generateSchedule`
returning for any random picks, each final cell is the cell of phase 1 followed by the names
the backfill added, and a final entry whose employee does not list `S` for `D` is among the
added ones. -/
theorem phase1_assigns_listed_shifts (emps : List Employee) (rng : Nat → Nat) (fuel : Nat)
    (hfresh : Fresh emps) (hnames : (emps.map Employee.name).Nodup) (hfuel : 2 ≤ fuel) :
    (∀ e ∈ (World.start emps).sched.phase1.employees, ∀ (D : String) (S : Shift),
      mapFind D e.assigned_shifts = some S → Prefers e D S) ∧
    (∀ (D : String) (S : Shift), ∀ n ∈ (World.start emps).sched.phase1.schedule D S,
      (∃ e ∈ (World.start emps).sched.phase1.employees, e.name = n) ∧
      ∀ e ∈ (World.start emps).sched.phase1.employees, e.name = n → Prefers e D S) ∧
    ∃ w', generateSchedule rng fuel (World.start emps) = some w' ∧
      ∀ (D : String) (S : Shift), ∃ added,
        w'.sched.schedule D S = (World.start emps).sched.phase1.schedule D S ++ added ∧
        ∀ n ∈ w'.sched.schedule D S,
          (∀ e ∈ w'.sched.employees, e.name = n → ¬ Prefers e D S) → n ∈ added := by
  refine ⟨?_, ?_, ?_⟩
  · apply phase1_prefOk
    intro x hx d sh hd
    rw [(hfresh x hx).1] at hd
    simp [mapFind] at hd
  · intro D S n hn
    obtain ⟨e, he, hname, hpref⟩ := phase1_entry_preferred emps hfresh D S n hn
    refine ⟨⟨e, he, hname⟩, ?_⟩
    intro x hx hxn
    have hnd : ((World.start emps).sched.phase1.employees.map Employee.name).Nodup := by
      rw [(phase1_reach (World.start emps).sched).names]
      exact hnames
    have : x = e := List.inj_on_of_nodup_map hnd hx he (by rw [hxn, hname])
    rw [this]
    exact hpref
  · obtain ⟨w', hgen, _, hr, _⟩ := generateSchedule_run rng fuel hfuel (World.start emps)
    refine ⟨w', hgen, ?_⟩
    intro D S
    obtain ⟨added, hadd⟩ := hr.cell_grows D S
    refine ⟨added, hadd, ?_⟩
    intro n hn hnot
    rw [hadd, List.mem_append] at hn
    rcases hn with hn | hn
    · exfalso
      obtain ⟨e, he, hname, prefs, hp, hmem⟩ := phase1_entry_preferred emps hfresh D S n hn
      obtain ⟨i, hi⟩ := List.mem_iff_getElem?.mp he
      obtain ⟨e', he', hn', hp', _, _⟩ := hr.mono i e hi
      exact hnot e' (List.mem_iff_getElem?.mpr ⟨i, he'⟩) (by rw [hn', hname])
        ⟨prefs, by rw [hp']; exact hp, hmem⟩
    · exact hn

theorem phase1_assigns_listed_shifts_witness :
    Fresh [aliceMondayMorning, bobEvenings] ∧
    ([aliceMondayMorning, bobEvenings].map Employee.name).Nodup ∧ 2 ≤ 2 ∧
    (∀ e ∈ (World.start [aliceMondayMorning, bobEvenings]).sched.phase1.employees,
      ∀ (D : String) (S : Shift), mapFind D e.assigned_shifts = some S → Prefers e D S) ∧
    (∀ (D : String) (S : Shift),
      ∀ n ∈ (World.start [aliceMondayMorning, bobEvenings]).sched.phase1.schedule D S,
      (∃ e ∈ (World.start [aliceMondayMorning, bobEvenings]).sched.phase1.employees, e.name = n) ∧
      ∀ e ∈ (World.start [aliceMondayMorning, bobEvenings]).sched.phase1.employees,
        e.name = n → Prefers e D S) ∧
    ∃ w', generateSchedule (fun _ => 0) 2 (World.start [aliceMondayMorning, bobEvenings]) = some w' ∧
      ∀ (D : String) (S : Shift), ∃ added,
        w'.sched.schedule D S =
          (World.start [aliceMondayMorning, bobEvenings]).sched.phase1.schedule D S ++ added ∧
        ∀ n ∈ w'.sched.schedule D S,
          (∀ e ∈ w'.sched.employees, e.name = n → ¬ Prefers e D S) → n ∈ added :=
  have hfresh : Fresh [aliceMondayMorning, bobEvenings] := by
    intro e he
    simp only [List.mem_cons, List.mem_singleton, List.not_mem_nil, or_false] at he
    rcases he with rfl | rfl <;> exact ⟨rfl, rfl⟩
  have hnames : ([aliceMondayMorning, bobEvenings].map Employee.name).Nodup := by decide
  ⟨hfresh, hnames, le_refl 2,
    phase1_assigns_listed_shifts [aliceMondayMorning, bobEvenings] (fun _ => 0) 2 hfresh hnames
      (le_refl 2)⟩

/-! ## A cell the backfill cannot fill -/

theorem fillCell_shortfall (rng : Nat → Nat) (day : String) (shift : Shift) (fuel : Nat)
    (w : World) (hfuel : 1 ≤ fuel) (hshort : (w.sched.schedule day shift).length < 2)
    (hpool : w.sched.pool day = []) :
    fillCell rng day shift fuel w = some { w with cout := w.cout ++ [warningLine day shift] } := by
  cases fuel with
  | zero => omega
  | succ fuel =>
    unfold fillCell
    rw [if_pos hshort, dif_pos hpool]

theorem resolveCells_keeps_cell (rng : Nat → Nat) (fuel : Nat) (cells : List (String × Shift))
    (w w' : World) (D : String) (S : Shift) (hpool : w.sched.pool D = [])
    (h : resolveCells rng fuel cells w = some w') :
    w'.sched.pool D = [] ∧ w'.sched.schedule D S = w.sched.schedule D S ∧
      ∃ l, w'.cout = w.cout ++ l := by
  obtain ⟨hr, hl⟩ := resolveCells_reach rng fuel cells w w' h
  exact ⟨hr.pool_nil D hpool, hr.cell_eq_of_pool_nil D hpool S, hl⟩

/-- C12: for every scheduler state in which the backfill starts, for any random picks, and
for every cell `(D, S)` of the week that holds fewer than 2 names while no employee has
worked fewer than 5 days and is unassigned on `D`, `resolveConflicts` returns, the lines it
writes include the shortfall warning for `(D, S)`, and the cell is as it was, whatever
happened to the cells visited before and after. -/
theorem resolveConflicts_shortfall (rng : Nat → Nat) (fuel : Nat) (w : World) (D : String)
    (S : Shift) (hD : D ∈ days) (hS : S ∈ shifts) (hfuel : 2 ≤ fuel)
    (hshort : (w.sched.schedule D S).length < 2)
    (hpool : ∀ e ∈ w.sched.employees, ¬ (e.getDaysWorked < 5 ∧ e.isAssigned D = false)) :
    ∃ w', resolveConflicts rng fuel w = some w' ∧
      (∃ written, w'.cout = w.cout ++ written ∧ warningLine D S ∈ written) ∧
      w'.sched.schedule D S = w.sched.schedule D S := by
  have hp : w.sched.pool D = [] := by
    rw [pool_eq_nil_iff]
    intro e he hc
    apply hpool e he
    refine ⟨hc.1, ?_⟩
    simp [Employee.isAssigned, hc.2]
  obtain ⟨pre, post, hsplit⟩ := List.append_of_mem (mem_allCells D S hD hS)
  obtain ⟨w1, h1⟩ := resolveCells_total rng fuel hfuel pre w
  obtain ⟨hp1, hc1, l1, hl1⟩ := resolveCells_keeps_cell rng fuel pre w w1 D S hp h1
  have h2 := fillCell_shortfall rng D S fuel w1 (by omega) (by rw [hc1]; exact hshort) hp1
  obtain ⟨w2, hw2⟩ : ∃ w2 : World, w2 = { w1 with cout := w1.cout ++ [warningLine D S] } :=
    ⟨_, rfl⟩
  rw [← hw2] at h2
  have hp2 : w2.sched.pool D = [] := by rw [hw2]; exact hp1
  obtain ⟨w3, h3⟩ := resolveCells_total rng fuel hfuel post w2
  obtain ⟨_, hc3, l3, hl3⟩ := resolveCells_keeps_cell rng fuel post w2 w3 D S hp2 h3
  refine ⟨w3, ?_, ⟨l1 ++ [warningLine D S] ++ l3, ?_, by simp⟩, ?_⟩
  · rw [resolveConflicts_eq, hsplit, resolveCells_append, h1]
    show resolveCells rng fuel ((D, S) :: post) w1 = some w3
    rw [resolveCells_cons]
    show (fillCell rng D S fuel w1).bind (resolveCells rng fuel post) = some w3
    rw [h2]
    exact h3
  · rw [hl3, hw2]
    simp only [hl1, List.append_assoc]
  · rw [hc3, hw2]
    exact hc1

theorem resolveConflicts_shortfall_witness :
    "Monday" ∈ days ∧ Shift.MORNING ∈ shifts ∧ 2 ≤ 2 ∧
    (({ World.start [aliceMondayMorning] with
        sched := (World.start [aliceMondayMorning]).sched.phase1 } : World).sched.schedule
      "Monday" Shift.MORNING).length < 2 ∧
    (∀ e ∈ ({ World.start [aliceMondayMorning] with
        sched := (World.start [aliceMondayMorning]).sched.phase1 } : World).sched.employees,
      ¬ (e.getDaysWorked < 5 ∧ e.isAssigned "Monday" = false)) ∧
    ∃ w', resolveConflicts (fun _ => 0) 2
        { World.start [aliceMondayMorning] with
          sched := (World.start [aliceMondayMorning]).sched.phase1 } = some w' ∧
      (∃ written,
        w'.cout = ({ World.start [aliceMondayMorning] with
          sched := (World.start [aliceMondayMorning]).sched.phase1 } : World).cout ++ written ∧
        warningLine "Monday" Shift.MORNING ∈ written) ∧
      w'.sched.schedule "Monday" Shift.MORNING =
        ({ World.start [aliceMondayMorning] with
          sched := (World.start [aliceMondayMorning]).sched.phase1 } : World).sched.schedule
          "Monday" Shift.MORNING :=
  ⟨by decide, by decide, le_refl 2, by decide, by decide,
    resolveConflicts_shortfall (fun _ => 0) 2
      { World.start [aliceMondayMorning] with
        sched := (World.start [aliceMondayMorning]).sched.phase1 }
      "Monday" Shift.MORNING (by decide) (by decide) (le_refl 2) (by decide) (by decide)⟩

/-! ## `Employee::assignShift` and `Employee::addPreferredShift` -/

theorem mapSet_length_of_some {α : Type} (key : String) (v w : α) (m : List (String × α))
    (h : mapFind key m = some w) : (mapSet key v m).length = m.length := by
  induction m with
  | nil => simp [mapFind] at h
  | cons p m ih =>
    obtain ⟨k, x⟩ := p
    by_cases hk : k = key
    · simp [mapSet, hk]
    · simp only [mapFind, hk, if_false] at h
      simp [mapSet, hk, ih h]

theorem iterate_assignShift (e : Employee) (day : String) (shift : Shift) (n : Nat) :
    ((fun x : Employee => x.assignShift day shift)^[n] e).days_worked = e.days_worked + n := by
  induction n with
  | zero => simp
  | succ n ih =>
    rw [Function.iterate_succ_apply']
    show ((fun x : Employee => x.assignShift day shift)^[n] e).days_worked + 1 = _
    rw [ih]
    push_cast
    omega

/-- C13: for every employee state, day and shift, `Employee::assignShift(day, shift)` is
defined whether or not `canWork` holds; afterwards the assignment recorded for the day is
the shift, whatever was recorded before, the counter is one more than before, and the name,
the preference lists and the assignments of all other days are as before. A second call for
the same day leaves the number of recorded assignments as after the first and raises the
counter by 2; `n` calls raise it by `n`, so that 6 calls on a new employee bring it above 5. -/
theorem assignShift_unconditional (e : Employee) (day : String) (shift : Shift) :
    mapFind day (e.assignShift day shift).assigned_shifts = some shift ∧
    (e.assignShift day shift).days_worked = e.days_worked + 1 ∧
    (e.assignShift day shift).name = e.name ∧
    (e.assignShift day shift).preferred_shifts = e.preferred_shifts ∧
    (∀ d, d ≠ day →
      mapFind d (e.assignShift day shift).assigned_shifts = mapFind d e.assigned_shifts) ∧
    (∀ shift2 : Shift,
      mapFind day ((e.assignShift day shift).assignShift day shift2).assigned_shifts =
        some shift2 ∧
      ((e.assignShift day shift).assignShift day shift2).assigned_shifts.length =
        (e.assignShift day shift).assigned_shifts.length ∧
      ((e.assignShift day shift).assignShift day shift2).days_worked = e.days_worked + 2) ∧
    (∀ n : Nat,
      ((fun x : Employee => x.assignShift day shift)^[n] e).days_worked = e.days_worked + n) ∧
    5 < ((fun x : Employee => x.assignShift day shift)^[6] (Employee.new e.name)).days_worked := by
  refine ⟨?_, rfl, rfl, rfl, ?_, ?_, iterate_assignShift e day shift, ?_⟩
  · simp [Employee.assignShift_find]
  · intro d hd
    simp [Employee.assignShift_find, hd]
  · intro shift2
    refine ⟨by simp [Employee.assignShift_find], ?_, ?_⟩
    · have h1 : mapFind day (e.assignShift day shift).assigned_shifts = some shift := by
        simp [Employee.assignShift_find]
      exact mapSet_length_of_some day shift2 shift _ h1
    · simp only [Employee.assignShift]
      omega
  · rw [iterate_assignShift]
    simp [Employee.new]

/-- C14: for every employee state and day, `addPreferredShift(day, NO_SHIFT)` returns the
employee unchanged, without a preference entry for the day if there was none; for Morning,
Afternoon and Evening it puts the shift at the end of the day's preference list and leaves
the other days' lists, the name, the assignments and the counter as they were. -/
theorem addPreferredShift_effect (e : Employee) (day : String) :
    e.addPreferredShift day Shift.NO_SHIFT = e ∧
    (mapFind day e.preferred_shifts = none →
      mapFind day (e.addPreferredShift day Shift.NO_SHIFT).preferred_shifts = none) ∧
    ∀ shift ∈ shifts,
      mapFind day (e.addPreferredShift day shift).preferred_shifts =
        some ((mapFind day e.preferred_shifts).getD [] ++ [shift]) ∧
      (∀ d, d ≠ day →
        mapFind d (e.addPreferredShift day shift).preferred_shifts =
          mapFind d e.preferred_shifts) ∧
      (e.addPreferredShift day shift).name = e.name ∧
      (e.addPreferredShift day shift).assigned_shifts = e.assigned_shifts ∧
      (e.addPreferredShift day shift).days_worked = e.days_worked := by
  refine ⟨by simp [Employee.addPreferredShift], ?_, ?_⟩
  · intro h
    simpa [Employee.addPreferredShift] using h
  · intro shift hshift
    have hne : shift ≠ Shift.NO_SHIFT := by
      intro h
      subst h
      simp [shifts] at hshift
    have hdef : e.addPreferredShift day shift =
        { e with preferred_shifts :=
            (mapSet day ((mapFind day e.preferred_shifts).getD [] ++ [shift])
              e.preferred_shifts) } := by
      simp [Employee.addPreferredShift, hne]
    rw [hdef]
    refine ⟨mapFind_mapSet_self _ _ _, ?_, rfl, rfl, rfl⟩
    intro d hd
    exact mapFind_mapSet_ne _ _ hd

/-! ## `saveToCSV` -/

theorem string_append_empty (s : String) : s ++ "" = s := by
  apply String.ext
  simp

theorem writeHeaderDays_eq (file : String) (ds : List String) :
    writeHeaderDays file ds = file ++ concatAll (ds.map (fun d => "," ++ d)) := by
  induction ds generalizing file with
  | nil => simp [writeHeaderDays, concatAll, string_append_empty]
  | cons d ds ih =>
    rw [writeHeaderDays, ih]
    simp [concatAll, String.append_assoc]

theorem writeCodes_eq (e : Employee) (file : String) (ds : List String) :
    writeCodes e file ds = file ++ concatAll (ds.map (fun d => "," ++ exportCode e d)) := by
  induction ds generalizing file with
  | nil => simp [writeCodes, concatAll, string_append_empty]
  | cons d ds ih =>
    rw [writeCodes, ih]
    simp [concatAll, String.append_assoc]

theorem writeEmployees_eq (file : String) (es : List Employee) :
    writeEmployees file es = file ++ concatAll (es.map exportLine) := by
  induction es generalizing file with
  | nil => simp [writeEmployees, concatAll, string_append_empty]
  | cons e es ih =>
    rw [writeEmployees, ih, writeCodes_eq]
    simp [concatAll, exportLine, Employee.getName, String.append_assoc]

theorem exportCode_of_assigned (e : Employee) (day : String)
    (h : e.isAssigned day = true) : exportCode e day = "N" := by
  have hc : ∀ sh, e.canWork day sh = false := by
    intro sh
    cases hw : e.canWork day sh with
    | false => rfl
    | true =>
      have := ((Employee.canWork_iff e day sh).mp hw).1
      simp [Employee.isAssigned, this] at h
  simp [exportCode, hc]

/-- C15: the text `saveToCSV` writes is the header line followed by one line per employee,
in order, and the code written for an employee and a day comes from `canWork` alone: M if
`canWork(day, Morning)`, else A if `canWork(day, Afternoon)`, else E if
`canWork(day, Evening)`, else N. Consequently the code of a day with a recorded assignment
is N, whatever shift was assigned, and a code other than N stands only on a day on which the
employee is unassigned. -/
theorem saveToCSV_codes_from_canWork (s : Scheduler) :
    s.saveToCSV true =
      some ("Name" ++ concatAll (days.map (fun d => "," ++ d)) ++ "\n" ++
        concatAll (s.employees.map exportLine)) ∧
    ∀ (e : Employee) (day : String),
      (e.canWork day Shift.MORNING = true → exportCode e day = "M") ∧
      (e.canWork day Shift.MORNING = false → e.canWork day Shift.AFTERNOON = true →
        exportCode e day = "A") ∧
      (e.canWork day Shift.MORNING = false → e.canWork day Shift.AFTERNOON = false →
        e.canWork day Shift.EVENING = true → exportCode e day = "E") ∧
      (e.canWork day Shift.MORNING = false → e.canWork day Shift.AFTERNOON = false →
        e.canWork day Shift.EVENING = false → exportCode e day = "N") ∧
      (e.isAssigned day = true → exportCode e day = "N") ∧
      (exportCode e day ≠ "N" → e.isAssigned day = false) := by
  constructor
  · simp only [Scheduler.saveToCSV, Bool.not_true, Bool.false_eq_true, if_false]
    rw [writeEmployees_eq, writeHeaderDays_eq]
  · intro e day
    refine ⟨?_, ?_, ?_, ?_, exportCode_of_assigned e day, ?_⟩
    · intro h
      simp [exportCode, h]
    · intro h1 h2
      simp [exportCode, h1, h2]
    · intro h1 h2 h3
      simp [exportCode, h1, h2, h3]
    · intro h1 h2 h3
      simp [exportCode, h1, h2, h3]
    · intro h
      cases ha : e.isAssigned day with
      | false => rfl
      | true => exact absurd (exportCode_of_assigned e day ha) h

/-! ## Determinism -/

theorem fillCell_draws_le (rng : Nat → Nat) (day : String) (shift : Shift) (fuel : Nat)
    (w w' : World) (h : fillCell rng day shift fuel w = some w') : w.draws ≤ w'.draws := by
  induction fuel generalizing w with
  | zero =>
    unfold fillCell at h
    split at h
    · cases h
    · cases h
      exact le_refl _
  | succ fuel ih =>
    unfold fillCell at h
    split at h
    · split at h
      · cases h
        exact le_refl _
      · simp only at h
        have := ih _ h
        simp only at this
        omega
    · cases h
      exact le_refl _

theorem resolveCells_draws_le (rng : Nat → Nat) (fuel : Nat) (cells : List (String × Shift))
    (w w' : World) (h : resolveCells rng fuel cells w = some w') : w.draws ≤ w'.draws := by
  induction cells generalizing w with
  | nil =>
    cases h
    exact le_refl _
  | cons c cells ih =>
    rw [resolveCells_cons] at h
    cases h1 : fillCell rng c.1 c.2 fuel w with
    | none => simp [h1] at h
    | some w1 =>
      rw [h1] at h
      exact le_trans (fillCell_draws_le rng c.1 c.2 fuel w w1 h1) (ih w1 h)

theorem fillCell_congr (rng1 rng2 : Nat → Nat) (day : String) (shift : Shift) (fuel : Nat)
    (w w' : World) (h : fillCell rng1 day shift fuel w = some w')
    (hagree : ∀ k < w'.draws, rng1 k = rng2 k) : fillCell rng2 day shift fuel w = some w' := by
  induction fuel generalizing w with
  | zero =>
    unfold fillCell at h ⊢
    exact h
  | succ fuel ih =>
    unfold fillCell at h ⊢
    split
    · rename_i hlt
      rw [if_pos hlt] at h
      split
      · rename_i hp
        rw [dif_pos hp] at h
        exact h
      · rename_i hp
        rw [dif_neg hp] at h
        simp only at h ⊢
        have hle := fillCell_draws_le rng1 day shift fuel _ w' h
        simp only at hle
        have heq : rng1 w.draws = rng2 w.draws := hagree w.draws (by omega)
        have := ih _ h
        simp only [heq] at this
        exact this
    · rename_i hlt
      rw [if_neg hlt] at h
      exact h

theorem resolveCells_congr (rng1 rng2 : Nat → Nat) (fuel : Nat) (cells : List (String × Shift))
    (w w' : World) (h : resolveCells rng1 fuel cells w = some w')
    (hagree : ∀ k < w'.draws, rng1 k = rng2 k) : resolveCells rng2 fuel cells w = some w' := by
  induction cells generalizing w with
  | nil => exact h
  | cons c cells ih =>
    rw [resolveCells_cons] at h ⊢
    cases h1 : fillCell rng1 c.1 c.2 fuel w with
    | none => simp [h1] at h
    | some w1 =>
      rw [h1] at h
      have hle := resolveCells_draws_le rng1 fuel cells w1 w' h
      rw [fillCell_congr rng1 rng2 c.1 c.2 fuel w w1 h1 (fun k hk => hagree k (by omega))]
      exact ih w1 h

/-- C16: `generateSchedule` returns, and its result, grid and employees included, is
determined by the employee list and the random picks actually made: a run whose random
source gives the same values at the draws made arrives at the same final state. Phase 1 does
not read the random source: for every source the run is the backfill applied to the one
state `phase1` computes. -/
theorem generateSchedule_deterministic (emps : List Employee) (rng1 : Nat → Nat) (fuel : Nat)
    (hfuel : 2 ≤ fuel) :
    ∃ w1, generateSchedule rng1 fuel (World.start emps) = some w1 ∧
      (∀ rng2 : Nat → Nat, (∀ k < w1.draws, rng1 k = rng2 k) →
        generateSchedule rng2 fuel (World.start emps) = some w1) ∧
      ∀ rng : Nat → Nat, generateSchedule rng fuel (World.start emps) =
        resolveConflicts rng fuel
          { World.start emps with sched := (World.start emps).sched.phase1 } := by
  obtain ⟨w1, h1, _⟩ := generateSchedule_run rng1 fuel hfuel (World.start emps)
  refine ⟨w1, h1, ?_, fun _ => rfl⟩
  intro rng2 hagree
  rw [generateSchedule, resolveConflicts_eq] at h1 ⊢
  exact resolveCells_congr rng1 rng2 fuel allCells _ w1 h1 hagree

theorem generateSchedule_deterministic_witness :
    2 ≤ 2 ∧
    ∃ w1, generateSchedule (fun k => k) 2 (World.start [aliceMondayMorning, bobEvenings]) = some w1 ∧
      (∀ rng2 : Nat → Nat, (∀ k < w1.draws, (fun k => k) k = rng2 k) →
        generateSchedule rng2 2 (World.start [aliceMondayMorning, bobEvenings]) = some w1) ∧
      ∀ rng : Nat → Nat,
        generateSchedule rng 2 (World.start [aliceMondayMorning, bobEvenings]) =
          resolveConflicts rng 2
            { World.start [aliceMondayMorning, bobEvenings] with
              sched := (World.start [aliceMondayMorning, bobEvenings]).sched.phase1 } :=
  ⟨le_refl 2,
    generateSchedule_deterministic [aliceMondayMorning, bobEvenings] (fun k => k) 2 (le_refl 2)⟩

/-! ## Under-staffing is exhaustion -/

/-- C17: for every scheduler state and any random picks, `generateSchedule` returns, and in
the final state no cell of the week holds fewer than 2 names while some employee has worked
fewer than 5 days and has no assignment on that day; a pool that is empty stays empty through
any further assignments. -/
theorem generateSchedule_short_cells_exhausted (w : World) (rng : Nat → Nat) (fuel : Nat)
    (hfuel : 2 ≤ fuel) :
    ∃ w', generateSchedule rng fuel w = some w' ∧
      (∀ D ∈ days, ∀ S ∈ shifts, (w'.sched.schedule D S).length < 2 →
        ∀ e ∈ w'.sched.employees, ¬ (e.getDaysWorked < 5 ∧ e.isAssigned D = false)) ∧
      ∀ (s t : Scheduler) (D : String), Reach s t → s.pool D = [] → t.pool D = [] := by
  obtain ⟨w', hgen, _, _, hs⟩ := generateSchedule_run rng fuel hfuel w
  refine ⟨w', hgen, ?_, fun s t D hr hp => hr.pool_nil D hp⟩
  intro D hD S hS hshort e he hc
  rcases hs D hD S hS with h2 | hp
  · omega
  · apply (pool_eq_nil_iff w'.sched D).mp hp e he
    refine ⟨hc.1, ?_⟩
    have h2 := hc.2
    simp only [Employee.isAssigned] at h2
    cases hm : mapFind D e.assigned_shifts with
    | none => rfl
    | some v => simp [hm] at h2

theorem generateSchedule_short_cells_exhausted_witness :
    2 ≤ 2 ∧
    ∃ w', generateSchedule (fun _ => 0) 2 (World.start [aliceMondayMorning]) = some w' ∧
      (∀ D ∈ days, ∀ S ∈ shifts, (w'.sched.schedule D S).length < 2 →
        ∀ e ∈ w'.sched.employees, ¬ (e.getDaysWorked < 5 ∧ e.isAssigned D = false)) ∧
      ∀ (s t : Scheduler) (D : String), Reach s t → s.pool D = [] → t.pool D = [] :=
  ⟨le_refl 2,
    generateSchedule_short_cells_exhausted (World.start [aliceMondayMorning]) (fun _ => 0) 2
      (le_refl 2)⟩

/-! ## The capacity of a cell -/

theorem assignShift_capped (s : Scheduler) (i : Nat) (day : String) (shift : Shift)
    (hs : Capped s) (hlt : (s.schedule day shift).length < 2) :
    Capped (s.assignShift i day shift) := by
  unfold Scheduler.assignShift
  cases he : s.employees[i]? with
  | none => exact hs
  | some e =>
    intro d sh
    simp only [Scheduler.pushName]
    split
    · rename_i hc
      obtain ⟨rfl, rfl⟩ := hc
      simp only [List.length_append, List.length_singleton]
      omega
    · exact hs d sh

theorem tryAssign_capped (i : Nat) (day : String) (shift : Shift) (s : Scheduler)
    (hs : Capped s) : Capped (Scheduler.tryAssign i day shift s) := by
  unfold Scheduler.tryAssign
  cases he : s.employees[i]? with
  | none => exact hs
  | some e =>
    simp only
    split
    · rename_i hc
      simp only [Bool.and_eq_true, decide_eq_true_eq] at hc
      exact assignShift_capped s i day shift hs hc.2
    · exact hs

theorem phase1_capped (s : Scheduler) (hs : Capped s) : Capped s.phase1 := by
  unfold Scheduler.phase1
  apply foldl_inv Capped _ _ _ _ hs
  intro s i hs
  unfold Scheduler.phase1Emp
  apply foldl_inv Capped _ _ _ _ hs
  intro s day hs
  exact tryAssign_capped i day _ _ (tryAssign_capped i day _ _ (tryAssign_capped i day _ _ hs))

theorem fillCell_capped (rng : Nat → Nat) (day : String) (shift : Shift) (fuel : Nat)
    (w w' : World) (hs : Capped w.sched) (h : fillCell rng day shift fuel w = some w') :
    Capped w'.sched := by
  induction fuel generalizing w with
  | zero =>
    unfold fillCell at h
    split at h
    · cases h
    · cases h
      exact hs
  | succ fuel ih =>
    unfold fillCell at h
    split at h
    · rename_i hlt
      split at h
      · cases h
        exact hs
      · simp only at h
        exact ih _ (assignShift_capped w.sched _ day shift hs hlt) h
    · cases h
      exact hs

theorem resolveCells_capped (rng : Nat → Nat) (fuel : Nat) (cells : List (String × Shift))
    (w w' : World) (hs : Capped w.sched) (h : resolveCells rng fuel cells w = some w') :
    Capped w'.sched := by
  induction cells generalizing w with
  | nil =>
    cases h
    exact hs
  | cons c cells ih =>
    rw [resolveCells_cons] at h
    cases h1 : fillCell rng c.1 c.2 fuel w with
    | none => simp [h1] at h
    | some w1 =>
      rw [h1] at h
      exact ih w1 (fillCell_capped rng c.1 c.2 fuel w w1 hs h1) h

/-- C18: on a fresh scheduler holding any employee list, for any random picks, no cell holds
more than 2 names after phase 1, after the backfill has gone through any number of cells,
or in the final state, `generateSchedule` returning; and a cell of the week for which no
shortfall warning was written ends with exactly 2 names. -/
theorem generateSchedule_cells_at_most_two (emps : List Employee) (rng : Nat → Nat) (fuel : Nat)
    (hfuel : 2 ≤ fuel) :
    (∀ (d : String) (sh : Shift), ((World.start emps).sched.phase1.schedule d sh).length ≤ 2) ∧
    (∀ (cells : List (String × Shift)) (wmid : World),
      resolveCells rng fuel cells
        { World.start emps with sched := (World.start emps).sched.phase1 } = some wmid →
      ∀ (d : String) (sh : Shift), (wmid.sched.schedule d sh).length ≤ 2) ∧
    ∃ w', generateSchedule rng fuel (World.start emps) = some w' ∧
      (∀ (d : String) (sh : Shift), (w'.sched.schedule d sh).length ≤ 2) ∧
      ∀ D ∈ days, ∀ S ∈ shifts, warningLine D S ∉ w'.cout →
        (w'.sched.schedule D S).length = 2 := by
  have h0 : Capped (World.start emps).sched := by
    intro d sh
    simp [World.start, Scheduler.new]
  have h1 := phase1_capped _ h0
  refine ⟨h1, fun cells wmid h => resolveCells_capped rng fuel cells _ wmid h1 h, ?_⟩
  obtain ⟨w', hgen, _, _, _⟩ := generateSchedule_run rng fuel hfuel (World.start emps)
  have hgen' := hgen
  rw [generateSchedule, resolveConflicts_eq] at hgen'
  have hcap := resolveCells_capped rng fuel allCells _ w' h1 hgen'
  refine ⟨w', hgen, hcap, ?_⟩
  intro D hD S hS hnw
  rcases resolveCells_post rng fuel allCells _ w' hgen' (D, S) (mem_allCells D S hD hS) with h | h
  · have := hcap D S
    simp only at h
    omega
  · exact absurd h.1 hnw

theorem generateSchedule_cells_at_most_two_witness :
    2 ≤ 2 ∧
    (∀ (d : String) (sh : Shift),
      ((World.start [aliceMondayMorning, bobEvenings]).sched.phase1.schedule d sh).length ≤ 2) ∧
    (∀ (cells : List (String × Shift)) (wmid : World),
      resolveCells (fun _ => 1) 2 cells
        { World.start [aliceMondayMorning, bobEvenings] with
          sched := (World.start [aliceMondayMorning, bobEvenings]).sched.phase1 } = some wmid →
      ∀ (d : String) (sh : Shift), (wmid.sched.schedule d sh).length ≤ 2) ∧
    ∃ w', generateSchedule (fun _ => 1) 2 (World.start [aliceMondayMorning, bobEvenings]) = some w' ∧
      (∀ (d : String) (sh : Shift), (w'.sched.schedule d sh).length ≤ 2) ∧
      ∀ D ∈ days, ∀ S ∈ shifts, warningLine D S ∉ w'.cout →
        (w'.sched.schedule D S).length = 2 :=
  ⟨le_refl 2,
    generateSchedule_cells_at_most_two [aliceMondayMorning, bobEvenings] (fun _ => 1) 2
      (le_refl 2)⟩

/-! ## The counter and the recorded assignments -/

theorem counterOk_of_empOk (s : Scheduler) (h : ∀ e ∈ s.employees, EmpOk e) : CounterOk s := by
  intro e he
  obtain ⟨hnd, hlen, _⟩ := h e he
  refine ⟨hnd, ?_, hlen⟩
  intro d
  rw [← not_iff_not, ← mapFind_eq_none_iff]
  cases hm : mapFind d e.assigned_shifts <;> simp [Employee.isAssigned, hm]

/-- C20: on a fresh scheduler holding any employee list, for any random picks,
`generateSchedule` returns by a run of `assignShift` calls each made on an employee without
an assignment for the day, so none overwrites; and in every state such a run passes through,
in particular after phase 1, after the backfill has gone through any number of cells, and in
the final state, each employee's days-worked counter is the number of days for which the
employee has a recorded assignment. -/
theorem generateSchedule_counter_counts_days (emps : List Employee) (rng : Nat → Nat)
    (fuel : Nat) (hfresh : Fresh emps) (hfuel : 2 ≤ fuel) :
    (∀ t, Reach (World.start emps).sched t → CounterOk t) ∧
    CounterOk (World.start emps).sched.phase1 ∧
    (∀ (cells : List (String × Shift)) (wmid : World),
      resolveCells rng fuel cells
        { World.start emps with sched := (World.start emps).sched.phase1 } = some wmid →
      CounterOk wmid.sched) ∧
    ∃ w', generateSchedule rng fuel (World.start emps) = some w' ∧
      Reach (World.start emps).sched w'.sched ∧ CounterOk w'.sched := by
  have hall : ∀ t, Reach (World.start emps).sched t → CounterOk t :=
    fun t hr => counterOk_of_empOk t (hr.empOk (start_empOk emps hfresh))
  refine ⟨hall, hall _ (phase1_reach _), ?_, ?_⟩
  · intro cells wmid h
    exact hall _ ((phase1_reach _).trans (resolveCells_reach rng fuel cells _ wmid h).1)
  · obtain ⟨w', hgen, hr, _, _⟩ := generateSchedule_run rng fuel hfuel (World.start emps)
    exact ⟨w', hgen, hr, hall _ hr⟩

theorem generateSchedule_counter_counts_days_witness :
    Fresh [aliceMondayMorning, bobEvenings] ∧ 2 ≤ 2 ∧
    (∀ t, Reach (World.start [aliceMondayMorning, bobEvenings]).sched t → CounterOk t) ∧
    CounterOk (World.start [aliceMondayMorning, bobEvenings]).sched.phase1 ∧
    (∀ (cells : List (String × Shift)) (wmid : World),
      resolveCells (fun _ => 0) 2 cells
        { World.start [aliceMondayMorning, bobEvenings] with
          sched := (World.start [aliceMondayMorning, bobEvenings]).sched.phase1 } = some wmid →
      CounterOk wmid.sched) ∧
    ∃ w', generateSchedule (fun _ => 0) 2 (World.start [aliceMondayMorning, bobEvenings]) = some w' ∧
      Reach (World.start [aliceMondayMorning, bobEvenings]).sched w'.sched ∧
      CounterOk w'.sched :=
  have hfresh : Fresh [aliceMondayMorning, bobEvenings] := by
    intro e he
    simp only [List.mem_cons, List.mem_singleton, List.not_mem_nil, or_false] at he
    rcases he with rfl | rfl <;> exact ⟨rfl, rfl⟩
  ⟨hfresh, le_refl 2,
    generateSchedule_counter_counts_days [aliceMondayMorning, bobEvenings] (fun _ => 0) 2 hfresh
      (le_refl 2)⟩

/-! ## Phase 1 for the first employee -/

theorem Employee.lists_iff (e : Employee) (day : String) (shift : Shift) :
    e.lists day shift = true ↔ Prefers e day shift := by
  unfold Employee.lists Prefers
  cases mapFind day e.preferred_shifts with
  | none => simp
  | some prefs => simp

theorem Employee.canWork_eq (e : Employee) (day : String) (shift : Shift)
    (hfree : mapFind day e.assigned_shifts = none) :
    e.canWork day shift = (decide (e.days_worked < 5) && e.lists day shift) := by
  unfold Employee.canWork Employee.lists
  cases mapFind day e.preferred_shifts with
  | none => simp
  | some prefs => simp [hfree]

theorem Employee.canWork_of_assigned (e : Employee) (day : String) (shift : Shift) (v : Shift)
    (h : mapFind day e.assigned_shifts = some v) : e.canWork day shift = false := by
  cases hc : e.canWork day shift with
  | false => rfl
  | true =>
    have := ((Employee.canWork_iff e day shift).mp hc).1
    rw [h] at this
    cases this

theorem Employee.firstListed_congr (e e' : Employee) (day : String)
    (h : e'.preferred_shifts = e.preferred_shifts) : e'.firstListed day = e.firstListed day := by
  simp only [Employee.firstListed, Employee.lists, h]

theorem tryAssign_of_canWork_false (i : Nat) (d : String) (sh : Shift) (s : Scheduler)
    (e : Employee) (he : s.employees[i]? = some e) (hc : e.canWork d sh = false) :
    Scheduler.tryAssign i d sh s = s := by
  simp [Scheduler.tryAssign, he, hc]

theorem tryAssign_of_canWork_true (i : Nat) (d : String) (sh : Shift) (s : Scheduler)
    (e : Employee) (he : s.employees[i]? = some e) (hc : e.canWork d sh = true)
    (hlt : (s.schedule d sh).length < 2) :
    Scheduler.tryAssign i d sh s = s.assignShift i d sh := by
  simp [Scheduler.tryAssign, he, hc, hlt]

theorem assignShift_getElem_self (s : Scheduler) (i : Nat) (d : String) (sh : Shift)
    (e : Employee) (he : s.employees[i]? = some e) :
    (s.assignShift i d sh).employees[i]? = some (e.assignShift d sh) := by
  rw [Scheduler.assignShift_employees s i d sh e he, List.getElem?_set]
  simp [(List.getElem?_eq_some.mp he).1]

theorem assignShift_cell_other (s : Scheduler) (i : Nat) (d d' : String) (sh sh' : Shift)
    (hne : d' ≠ d) : (s.assignShift i d sh).schedule d' sh' = s.schedule d' sh' := by
  unfold Scheduler.assignShift
  cases s.employees[i]? with
  | none => rfl
  | some e => simp [Scheduler.pushName, hne]

theorem assignShift_cell_length_le (s : Scheduler) (i : Nat) (d d' : String) (sh sh' : Shift) :
    ((s.assignShift i d sh).schedule d' sh').length ≤ (s.schedule d' sh').length + 1 := by
  unfold Scheduler.assignShift
  cases s.employees[i]? with
  | none => simp
  | some e =>
    simp only [Scheduler.pushName]
    split <;> simp

/-- The body of phase 1 for one day, for an employee who has no assignment for the day and
finds the three cells of the day short of 2 names. -/
theorem phase1Day_first_fit (i : Nat) (s : Scheduler) (d : String) (e : Employee)
    (he : s.employees[i]? = some e) (hfree : mapFind d e.assigned_shifts = none)
    (hcells : ∀ sh, (s.schedule d sh).length < 2) :
    Scheduler.phase1Day i s d =
      if e.days_worked < 5 then
        match e.firstListed d with
        | some sh => s.assignShift i d sh
        | none => s
      else s := by
  unfold Scheduler.phase1Day
  have hcw := fun sh => Employee.canWork_eq e d sh hfree
  have hafter : ∀ sh0 sh, ((e.assignShift d sh0).canWork d sh) = false := fun sh0 sh =>
    Employee.canWork_of_assigned _ d sh sh0 (by simp [Employee.assignShift_find])
  by_cases h5 : e.days_worked < 5
  · rw [if_pos h5]
    simp only [h5, decide_True, Bool.true_and] at hcw
    cases hM : e.lists d Shift.MORNING with
    | true =>
      rw [tryAssign_of_canWork_true i d _ s e he (by rw [hcw, hM]) (hcells _),
        tryAssign_of_canWork_false i d _ _ _ (assignShift_getElem_self s i d _ e he) (hafter _ _),
        tryAssign_of_canWork_false i d _ _ _ (assignShift_getElem_self s i d _ e he) (hafter _ _)]
      simp [Employee.firstListed, hM]
    | false =>
      rw [tryAssign_of_canWork_false i d _ s e he (by rw [hcw, hM])]
      cases hA : e.lists d Shift.AFTERNOON with
      | true =>
        rw [tryAssign_of_canWork_true i d _ s e he (by rw [hcw, hA]) (hcells _),
          tryAssign_of_canWork_false i d _ _ _ (assignShift_getElem_self s i d _ e he)
            (hafter _ _)]
        simp [Employee.firstListed, hM, hA]
      | false =>
        rw [tryAssign_of_canWork_false i d _ s e he (by rw [hcw, hA])]
        cases hE : e.lists d Shift.EVENING with
        | true =>
          rw [tryAssign_of_canWork_true i d _ s e he (by rw [hcw, hE]) (hcells _)]
          simp [Employee.firstListed, hM, hA, hE]
        | false =>
          rw [tryAssign_of_canWork_false i d _ s e he (by rw [hcw, hE])]
          simp [Employee.firstListed, hM, hA, hE]
  · rw [if_neg h5]
    have hno : ∀ sh, e.canWork d sh = false := by
      intro sh
      rw [hcw]
      simp [h5]
    rw [tryAssign_of_canWork_false i d _ s e he (hno _),
      tryAssign_of_canWork_false i d _ s e he (hno _),
      tryAssign_of_canWork_false i d _ s e he (hno _)]

theorem phase1Emp_first_fit (i : Nat) (ds : List String) :
    ds.Nodup → ∀ (s : Scheduler) (e : Employee) (k : Nat), s.employees[i]? = some e →
      e.days_worked + (k : Int) = 5 → (∀ d ∈ ds, mapFind d e.assigned_shifts = none) →
      (∀ d ∈ ds, ∀ sh, (s.schedule d sh).length < 2) →
      ∃ e', (ds.foldl (Scheduler.phase1Day i) s).employees[i]? = some e' ∧
        e'.name = e.name ∧ e'.preferred_shifts = e.preferred_shifts ∧
        ∀ x, mapFind x e'.assigned_shifts =
          if x ∈ (ds.filter (fun d => (e.firstListed d).isSome)).take k then e.firstListed x
          else mapFind x e.assigned_shifts := by
  induction ds with
  | nil =>
    intro _ s e k he _ _ _
    exact ⟨e, he, rfl, rfl, by simp⟩
  | cons d ds ih =>
    intro hnd s e k he hk hfree hcells
    rw [List.nodup_cons] at hnd
    rw [List.foldl_cons,
      phase1Day_first_fit i s d e he (hfree d (List.mem_cons_self d ds))
        (hcells d (List.mem_cons_self d ds))]
    have hfree' : ∀ x ∈ ds, mapFind x e.assigned_shifts = none :=
      fun x hx => hfree x (List.mem_cons_of_mem d hx)
    have hcells' : ∀ x ∈ ds, ∀ sh, (s.schedule x sh).length < 2 :=
      fun x hx => hcells x (List.mem_cons_of_mem d hx)
    cases k with
    | zero =>
      have h5 : ¬ e.days_worked < 5 := by
        simp only [Nat.cast_zero, add_zero] at hk
        omega
      rw [if_neg h5]
      obtain ⟨e', he', hn, hp, ha⟩ := ih hnd.2 s e 0 he hk hfree' hcells'
      exact ⟨e', he', hn, hp, by simpa using ha⟩
    | succ k =>
      have h5 : e.days_worked < 5 := by
        push_cast at hk
        omega
      rw [if_pos h5]
      cases hfl : e.firstListed d with
      | none =>
        simp only
        obtain ⟨e', he', hn, hp, ha⟩ := ih hnd.2 s e (k + 1) he hk hfree' hcells'
        refine ⟨e', he', hn, hp, ?_⟩
        intro x
        rw [ha x, List.filter_cons]
        simp [hfl]
      | some sh =>
        simp only
        have he1 := assignShift_getElem_self s i d sh e he
        have hk1 : (e.assignShift d sh).days_worked + (k : Int) = 5 := by
          simp only [Employee.assignShift]
          push_cast at hk
          omega
        have hfree1 : ∀ x ∈ ds, mapFind x (e.assignShift d sh).assigned_shifts = none := by
          intro x hx
          have hne : x ≠ d := fun h => hnd.1 (h ▸ hx)
          rw [Employee.assignShift_find, if_neg hne]
          exact hfree' x hx
        have hcells1 : ∀ x ∈ ds, ∀ sh', ((s.assignShift i d sh).schedule x sh').length < 2 := by
          intro x hx sh'
          have hne : x ≠ d := fun h => hnd.1 (h ▸ hx)
          rw [assignShift_cell_other s i d x sh sh' hne]
          exact hcells' x hx sh'
        obtain ⟨e', he', hn, hp, ha⟩ :=
          ih hnd.2 (s.assignShift i d sh) (e.assignShift d sh) k he1 hk1 hfree1 hcells1
        refine ⟨e', he', hn, hp, ?_⟩
        intro x
        have hfilter : (fun y => ((e.assignShift d sh).firstListed y).isSome) =
            (fun y => (e.firstListed y).isSome) := by
          funext y
          rw [Employee.firstListed_congr e (e.assignShift d sh) y rfl]
        rw [ha x, hfilter, Employee.firstListed_congr e (e.assignShift d sh) x rfl,
          List.filter_cons]
        simp only [hfl, Option.isSome_some, if_true, List.take_succ_cons, List.mem_cons]
        by_cases hx : x = d
        · subst hx
          have hnot : x ∉ (ds.filter (fun y => (e.firstListed y).isSome)).take k :=
            fun h => hnd.1 (List.mem_of_mem_filter (List.mem_of_mem_take h))
          simp [hnot, Employee.assignShift_find, hfl]
        · simp [hx, Employee.assignShift_find]

theorem tryAssign_other (i j : Nat) (d : String) (sh : Shift) (s : Scheduler) (hne : i ≠ j) :
    (Scheduler.tryAssign i d sh s).employees[j]? = s.employees[j]? := by
  unfold Scheduler.tryAssign
  cases he : s.employees[i]? with
  | none => rfl
  | some e =>
    simp only
    split
    · rw [Scheduler.assignShift_employees s i d sh e he, List.getElem?_set_ne hne]
    · rfl

theorem phase1Emp_other (i j : Nat) (s : Scheduler) (hne : i ≠ j) :
    (Scheduler.phase1Emp s i).employees[j]? = s.employees[j]? := by
  unfold Scheduler.phase1Emp
  apply foldl_inv (fun t => t.employees[j]? = s.employees[j]?) _ _ _ _ rfl
  intro t d ht
  unfold Scheduler.phase1Day
  rw [tryAssign_other i j d _ _ hne, tryAssign_other i j d _ _ hne,
    tryAssign_other i j d _ _ hne]
  exact ht

theorem phase1_loop_other (l : List Nat) (j : Nat) (s : Scheduler) (hl : ∀ i ∈ l, i ≠ j) :
    (l.foldl Scheduler.phase1Emp s).employees[j]? = s.employees[j]? := by
  induction l generalizing s with
  | nil => rfl
  | cons i l ih =>
    rw [List.foldl_cons, ih _ (fun x hx => hl x (List.mem_cons_of_mem i hx)),
      phase1Emp_other i j s (hl i (List.mem_cons_self i l))]

/-- C19: on a fresh scheduler, when phase 1 ends the first employee of the list has an
assignment on exactly the first five days, in week order, for which they list at least one
of Morning, Afternoon, Evening (on all such days when there are fewer than five), each time
for the earliest of Morning, Afternoon, Evening that they list for the day, and on no other
day; name and preferences are as loaded. -/
theorem phase1_first_employee_first_fit (e : Employee) (others : List Employee)
    (hfresh : Fresh (e :: others)) :
    ∃ e', (World.start (e :: others)).sched.phase1.employees[0]? = some e' ∧
      e'.name = e.name ∧ e'.preferred_shifts = e.preferred_shifts ∧
      ∀ d, mapFind d e'.assigned_shifts =
        if d ∈ e.offeredDays.take 5 then e.firstListed d else none := by
  obtain ⟨ha, hd⟩ := hfresh e (List.mem_cons_self e others)
  have hstart : (World.start (e :: others)).sched.employees[0]? = some e := by
    simp [World.start]
  obtain ⟨e', he', hn, hp, hmap⟩ := phase1Emp_first_fit 0 days (by decide)
    (World.start (e :: others)).sched e 5 hstart (by rw [hd]; rfl)
    (fun d _ => by rw [ha]; rfl) (fun d _ sh => by simp [World.start, Scheduler.new])
  refine ⟨e', ?_, hn, hp, ?_⟩
  · have hrange : List.range (World.start (e :: others)).sched.employees.length =
        0 :: List.map Nat.succ (List.range others.length) := by
      show List.range (others.length + 1) = _
      exact List.range_succ_eq_map _
    unfold Scheduler.phase1
    rw [hrange, List.foldl_cons, phase1_loop_other _ 0 _ (by
      intro i hi
      obtain ⟨j, _, rfl⟩ := List.mem_map.mp hi
      exact Nat.succ_ne_zero j)]
    exact he'
  · intro d
    rw [hmap d, ha]
    rfl

theorem phase1_first_employee_first_fit_witness :
    Fresh (bobEvenings :: [aliceMondayMorning]) ∧
    ∃ e', (World.start (bobEvenings :: [aliceMondayMorning])).sched.phase1.employees[0]? =
        some e' ∧
      e'.name = bobEvenings.name ∧ e'.preferred_shifts = bobEvenings.preferred_shifts ∧
      ∀ d, mapFind d e'.assigned_shifts =
        if d ∈ bobEvenings.offeredDays.take 5 then bobEvenings.firstListed d else none :=
  have hfresh : Fresh (bobEvenings :: [aliceMondayMorning]) := by
    intro e he
    simp only [List.mem_cons, List.mem_singleton, List.not_mem_nil, or_false] at he
    rcases he with rfl | rfl <;> exact ⟨rfl, rfl⟩
  ⟨hfresh, phase1_first_employee_first_fit bobEvenings [aliceMondayMorning] hfresh⟩

/-- The reading of `firstListed`: the earliest of Morning, Afternoon, Evening among the
shifts the employee lists for the day. -/
theorem firstListed_spec (e : Employee) (d : String) :
    (e.firstListed d = some Shift.MORNING ↔ Prefers e d Shift.MORNING) ∧
    (e.firstListed d = some Shift.AFTERNOON ↔
      ¬ Prefers e d Shift.MORNING ∧ Prefers e d Shift.AFTERNOON) ∧
    (e.firstListed d = some Shift.EVENING ↔
      ¬ Prefers e d Shift.MORNING ∧ ¬ Prefers e d Shift.AFTERNOON ∧
        Prefers e d Shift.EVENING) ∧
    (e.firstListed d = none ↔ ∀ sh ∈ shifts, ¬ Prefers e d sh) ∧
    e.firstListed d ≠ some Shift.NO_SHIFT := by
  simp only [← Employee.lists_iff, Employee.firstListed, shifts, List.mem_cons,
    List.mem_singleton, List.not_mem_nil, or_false, forall_eq_or_imp, forall_eq]
  cases e.lists d Shift.MORNING <;> cases e.lists d Shift.AFTERNOON <;>
    cases e.lists d Shift.EVENING <;> simp

/-- The backfill scenario of the specification: with the single employee who lists Morning
on Monday, the cell of Monday Morning ends with her name alone and its warning is written. -/
theorem backfill_scenario :
    (generateSchedule (fun _ => 0) 2 (World.start [aliceMondayMorning])).map
        (fun w => (w.sched.schedule "Monday" Shift.MORNING,
          decide (warningLine "Monday" Shift.MORNING ∈ w.cout))) =
      some (["Alice"], true) := by
  decide

/-! ## Termination of the backfill -/

/-- The counting loop computes the state that `fillCell` computes. -/
theorem fillCellCount_state (rng : Nat → Nat) (day : String) (shift : Shift) (fuel : Nat)
    (w : World) :
    (fillCellCount rng day shift fuel w).map (fun r => r.1) = fillCell rng day shift fuel w := by
  induction fuel generalizing w with
  | zero =>
    unfold fillCellCount fillCell
    split <;> rfl
  | succ fuel ih =>
    unfold fillCellCount fillCell
    split
    · split
      · rfl
      · simp only
        rw [← ih]
        cases fillCellCount rng day shift fuel _ with
        | none => rfl
        | some r => rfl
    · rfl

/-- The counts of a loop that ends: the cell grows by one name per assigning iteration, and
an iteration that breaks leaves the cell short. -/
theorem fillCellCount_bounds (rng : Nat → Nat) (day : String) (shift : Shift) (fuel : Nat)
    (w w' : World) (a b : Nat) (h : fillCellCount rng day shift fuel w = some (w', a, b)) :
    (w'.sched.schedule day shift).length = (w.sched.schedule day shift).length + a ∧
      b ≤ 1 ∧ (b = 1 → (w'.sched.schedule day shift).length < 2) ∧
      (0 < a → (w'.sched.schedule day shift).length ≤ 2) := by
  induction fuel generalizing w a with
  | zero =>
    unfold fillCellCount at h
    split at h
    · cases h
    · cases h
      simp
  | succ fuel ih =>
    unfold fillCellCount at h
    split at h
    · rename_i hlt
      split at h
      · cases h
        exact ⟨by simp, le_refl 1, fun _ => hlt, by simp⟩
      · rename_i hp
        simp only at h
        obtain ⟨e, he, _, _⟩ := pool_get_good w.sched day
          (rng w.draws % (w.sched.pool day).length) (Nat.mod_lt _ (List.length_pos.mpr hp))
        cases hr : fillCellCount rng day shift fuel
            { w with
              sched := w.sched.assignShift ((w.sched.pool day).get ⟨rng w.draws %
                (w.sched.pool day).length, Nat.mod_lt _ (List.length_pos.mpr hp)⟩) day shift
              draws := w.draws + 1 } with
        | none =>
          rw [hr] at h
          cases h
        | some r =>
          obtain ⟨w2, a2, b2⟩ := r
          rw [hr] at h
          simp only [Option.some.injEq, Prod.mk.injEq] at h
          obtain ⟨rfl, rfl, rfl⟩ := h
          obtain ⟨hlen, hb, hbr, ha⟩ := ih _ _ hr
          simp only [assignShift_cell_self _ _ day shift e he, List.length_append,
            List.length_singleton] at hlen
          refine ⟨by omega, hb, hbr, ?_⟩
          intro _
          rcases Nat.eq_zero_or_pos a2 with h0 | hpos
          · omega
          · exact ha hpos
    · cases h
      simp

theorem fillCell_budget_succ (rng : Nat → Nat) (day : String) (shift : Shift) (fuel : Nat)
    (w w' : World) (h : fillCell rng day shift fuel w = some w') :
    fillCell rng day shift (fuel + 1) w = some w' := by
  induction fuel generalizing w with
  | zero =>
    unfold fillCell at h
    split at h
    · cases h
    · rename_i hlt
      unfold fillCell
      rw [if_neg hlt]
      exact h
  | succ fuel ih =>
    unfold fillCell at h
    unfold fillCell
    split
    · rename_i hlt
      rw [if_pos hlt] at h
      split
      · rename_i hp
        rw [dif_pos hp] at h
        exact h
      · rename_i hp
        rw [dif_neg hp] at h
        simp only at h ⊢
        exact ih _ h
    · rename_i hlt
      rw [if_neg hlt] at h
      exact h

theorem fillCell_budget_mono (rng : Nat → Nat) (day : String) (shift : Shift)
    (fuel fuel' : Nat) (hle : fuel ≤ fuel') (w w' : World)
    (h : fillCell rng day shift fuel w = some w') :
    fillCell rng day shift fuel' w = some w' := by
  induction hle with
  | refl => exact h
  | step _ ih => exact fillCell_budget_succ rng day shift _ w w' ih

theorem resolveCells_budget_mono (rng : Nat → Nat) (fuel fuel' : Nat) (hle : fuel ≤ fuel')
    (cells : List (String × Shift)) (w w' : World)
    (h : resolveCells rng fuel cells w = some w') :
    resolveCells rng fuel' cells w = some w' := by
  induction cells generalizing w with
  | nil => exact h
  | cons c cells ih =>
    rw [resolveCells_cons] at h ⊢
    cases h1 : fillCell rng c.1 c.2 fuel w with
    | none => simp [h1] at h
    | some w1 =>
      rw [h1] at h
      rw [fillCell_budget_mono rng c.1 c.2 fuel fuel' hle w w1 h1]
      exact ih w1 h

/-- C21: for every scheduler state, any random picks and any loop budget of at least 2, the
`while` loop of `resolveConflicts` for a cell ends: it makes at most 2 iterations that assign
and at most one that breaks (at most 2 iterations with the loop condition true in all), the
cell growing by exactly one name per assigning iteration; hence `resolveConflicts` and
`generateSchedule` return, with the result that the budget 2 already gives. -/
theorem backfill_terminates (rng : Nat → Nat) (fuel : Nat) (w : World) (hfuel : 2 ≤ fuel) :
    (∀ (day : String) (shift : Shift), ∃ w' assigns breaks,
      fillCellCount rng day shift fuel w = some (w', assigns, breaks) ∧
      fillCell rng day shift fuel w = some w' ∧
      assigns ≤ 2 ∧ breaks ≤ 1 ∧ assigns + breaks ≤ 2 ∧
      (w'.sched.schedule day shift).length = (w.sched.schedule day shift).length + assigns) ∧
    (∃ w', resolveConflicts rng fuel w = some w' ∧ resolveConflicts rng 2 w = some w') ∧
    ∃ w', generateSchedule rng fuel w = some w' ∧ generateSchedule rng 2 w = some w' := by
  refine ⟨?_, ?_, ?_⟩
  · intro day shift
    obtain ⟨w', hw'⟩ := fillCell_total rng day shift fuel w (by omega)
    have hst := fillCellCount_state rng day shift fuel w
    rw [hw'] at hst
    cases hc : fillCellCount rng day shift fuel w with
    | none =>
      rw [hc] at hst
      cases hst
    | some r =>
      obtain ⟨w2, a, b⟩ := r
      rw [hc] at hst
      simp only [Option.map_some', Option.some.injEq] at hst
      subst hst
      obtain ⟨hlen, hb, hbr, ha⟩ := fillCellCount_bounds rng day shift fuel w w2 a b hc
      have ha2 : a ≤ 2 := by
        rcases Nat.eq_zero_or_pos a with h0 | hpos
        · omega
        · have := ha hpos
          omega
      have hab : a + b ≤ 2 := by
        rcases Nat.eq_zero_or_pos b with h0 | hpos
        · omega
        · have := hbr (by omega)
          omega
      exact ⟨w2, a, b, rfl, hw', ha2, hb, hab, hlen⟩
  · obtain ⟨w', h2⟩ := resolveCells_total rng 2 (le_refl 2) allCells w
    refine ⟨w', ?_, ?_⟩
    · rw [resolveConflicts_eq]
      exact resolveCells_budget_mono rng 2 fuel hfuel allCells w w' h2
    · rw [resolveConflicts_eq]
      exact h2
  · obtain ⟨w', h2⟩ := resolveCells_total rng 2 (le_refl 2) allCells
      { w with sched := w.sched.phase1 }
    refine ⟨w', ?_, ?_⟩
    · rw [generateSchedule, resolveConflicts_eq]
      exact resolveCells_budget_mono rng 2 fuel hfuel allCells _ w' h2
    · rw [generateSchedule, resolveConflicts_eq]
      exact h2

theorem backfill_terminates_witness :
    2 ≤ 3 ∧
    (∀ (day : String) (shift : Shift), ∃ w' assigns breaks,
      fillCellCount (fun k => k) day shift 3
        (World.start [aliceMondayMorning, bobEvenings]) = some (w', assigns, breaks) ∧
      fillCell (fun k => k) day shift 3 (World.start [aliceMondayMorning, bobEvenings]) =
        some w' ∧
      assigns ≤ 2 ∧ breaks ≤ 1 ∧ assigns + breaks ≤ 2 ∧
      (w'.sched.schedule day shift).length =
        ((World.start [aliceMondayMorning, bobEvenings]).sched.schedule day shift).length +
          assigns) ∧
    (∃ w', resolveConflicts (fun k => k) 3 (World.start [aliceMondayMorning, bobEvenings]) =
        some w' ∧
      resolveConflicts (fun k => k) 2 (World.start [aliceMondayMorning, bobEvenings]) =
        some w') ∧
    ∃ w', generateSchedule (fun k => k) 3 (World.start [aliceMondayMorning, bobEvenings]) =
        some w' ∧
      generateSchedule (fun k => k) 2 (World.start [aliceMondayMorning, bobEvenings]) =
        some w' :=
  ⟨by decide,
    backfill_terminates (fun k => k) 3 (World.start [aliceMondayMorning, bobEvenings])
      (by decide)⟩

/-- The three ways the loop of a cell can run from an empty cell: two assignments with two
employees in the pool, one assignment and a break with one, a break alone with none. -/
theorem fillCellCount_samples :
    (fillCellCount (fun _ => 0) "Monday" Shift.MORNING 2
        (World.start [aliceMondayMorning, bobEvenings])).map (fun r => r.2) = some (2, 0) ∧
    (fillCellCount (fun _ => 0) "Monday" Shift.MORNING 2
        (World.start [aliceMondayMorning])).map (fun r => r.2) = some (1, 1) ∧
    (fillCellCount (fun _ => 0) "Monday" Shift.MORNING 2
        (World.start [])).map (fun r => r.2) = some (0, 1) ∧
    (fillCellCount (fun _ => 0) "Monday" Shift.MORNING 1
        (World.start [aliceMondayMorning, bobEvenings])).map (fun r => r.2) = none := by
  decide

end ShiftScheduler
